import Mathlib

/-!
Verification development for the sciencestack-tokens rendering / span-tracking /
excerpt-matching library.  The definitions below are shallow embeddings of the
TypeScript sources:

* `AbstractTokenNode.GetLatexContent` / `GetMarkdownContent` (the recursive
  renderer loop with its optional span tracker), from
  `src/technical/EquationTokenNode.ts` (AbstractTokenNode section);
* `TokenExporter.toLatexWithSpans` / `toMarkdownWithSpans` and
  `findMissingChildSpans`, from the SpanTracker-based `TokenExporter`;
* `SpanMatcher` (`findNodesForRange`, `matchExcerpt`), from
  `src/matching/SpanMatcher.ts`;
* the LaTeX normalizer pipeline (`applyRemovals`, `applyReplacements`,
  `normalizeWhitespace`, `createLatexNormalizer`) from
  `src/matching/normalizeWhitespace.ts` and the LatexNormalizer module;
* the fuzzy matcher (`normalizeForComparison`, `similarity`,
  `buildPositionMap`, `findFuzzyMatch`, `filterToLeafRange`);
* `EquationTokenNode.getLatexContent`;
* the node tree mutation operations `addChild` / `removeChild`;
* the `TokenExporter` input-classification / factory logic.

Strings are handled through their underlying character lists.  JavaScript
numbers used as indices are modelled as `Nat` (all index arithmetic in the
sources stays non-negative on the paths modelled here, with guards mirrored
from the code).
-/

namespace SciTok

/-! ### Basic string helpers (JS `substring` / `indexOf` over char lists) -/

/-- JS `s.substring(a, b)` for `a ≤ b`: clamps to the string bounds. -/
def substr (s : String) (a b : Nat) : String :=
  ⟨(s.data.drop a).take (b - a)⟩

/-- One candidate position of JS `indexOf`: does `pat` occur at position `i`? -/
def matchesAt (s pat : List Char) (i : Nat) : Bool :=
  pat.isPrefixOf (s.drop i)

/-- Scan positions `i, i+1, ...` for the first occurrence of `pat` in `s`.
Recursion is on the remaining length so the kernel can evaluate it. -/
def idxScan (s pat : List Char) : Nat → Nat → Option Nat
  | _, 0 => none
  | i, fuel + 1 =>
    if i + pat.length ≤ s.length then
      if matchesAt s pat i then some i
      else idxScan s pat (i + 1) fuel
    else none

/-- JS `s.indexOf(pat, start)` (as an `Option`; the sources compare with `-1`).
For an empty pattern JS returns `min start s.length`. -/
def strIndexOf (s pat : String) (start : Nat) : Option Nat :=
  if pat.data.length = 0 then some (min start s.data.length)
  else idxScan s.data pat.data start (s.data.length + 1)

theorem idxScan_some_bounds {s pat : List Char} {i fuel j : Nat}
    (h : idxScan s pat i fuel = some j) :
    i ≤ j ∧ j + pat.length ≤ s.length := by
  induction fuel generalizing i with
  | zero => simp [idxScan] at h
  | succ fuel ih =>
    unfold idxScan at h
    by_cases hle : i + pat.length ≤ s.length
    · simp only [hle, if_true] at h
      by_cases hm : matchesAt s pat i
      · simp [hm] at h; omega
      · simp [hm] at h
        have := ih h; omega
    · simp [hle] at h

theorem strIndexOf_some_bounds {s pat : String} {start j : Nat}
    (h : strIndexOf s pat start = some j) (hne : pat.data.length ≠ 0) :
    start ≤ j ∧ j + pat.data.length ≤ s.data.length := by
  unfold strIndexOf at h
  simp only [hne, if_false] at h
  exact idxScan_some_bounds h

/-! ### Node model

`AbstractTokenNode`: identity (`nid`), token type tag (`ntype`), the
inline-vs-block flag (`IsInlineToken` in the source, derived from the token),
and the ordered children list.  The per-kind render methods
(`getLatexContent`, `getMarkdownContent`, `getCopyContent`) are polymorphic
dynamic dispatch in the source; the renderer and span logic below are
parametric in those methods, exactly as `findMissingChildSpans` takes its
`getNodeContent` function as a parameter. -/

structure NodeData where
  nid : String
  ntype : String
  inline : Bool
deriving DecidableEq, Repr

inductive Node where
  | mk (data : NodeData) (children : List Node)
deriving Repr

def Node.data : Node → NodeData
  | .mk d _ => d

def Node.children : Node → List Node
  | .mk _ cs => cs

def Node.nid (n : Node) : String := n.data.nid
def Node.ntype (n : Node) : String := n.data.ntype
def Node.inline (n : Node) : Bool := n.data.inline

mutual
/-- All nodes of the subtree rooted at `n`, the root first. -/
def subtreeNodes : Node → List Node
  | .mk d cs => .mk d cs :: forestNodes cs
termination_by n => sizeOf n

/-- All nodes of a forest (all roots and their descendants). -/
def forestNodes : List Node → List Node
  | [] => []
  | n :: ns => subtreeNodes n ++ forestNodes ns
termination_by ns => sizeOf ns
end

def subtreeIds (n : Node) : List String := (subtreeNodes n).map Node.nid

def forestIds (ns : List Node) : List String := (forestNodes ns).map Node.nid

/-- Proper descendants of `n` (all nodes strictly below `n`). -/
def properDesc (n : Node) : List Node := forestNodes n.children

theorem subtreeNodes_def (n : Node) :
    subtreeNodes n = n :: forestNodes n.children := by
  cases n with
  | mk d cs => rw [subtreeNodes]; rfl

/-! ### Span maps (`Map<string, SpanInfo>` with JS `Map` set/get semantics) -/

structure SpanInfo where
  start : Nat
  stop : Nat
  type : String
deriving DecidableEq, Repr

/-- A JS `Map<string, SpanInfo>` as an insertion-ordered association list. -/
abbrev Spans := List (String × SpanInfo)

def mget (m : Spans) (k : String) : Option SpanInfo :=
  (m.find? (fun p => p.1 = k)).map (·.2)

def mhas (m : Spans) (k : String) : Bool :=
  (m.find? (fun p => p.1 = k)).isSome

/-- `Map.set`: replace the binding in place if the key exists, else append. -/
def mset (m : Spans) (k : String) (v : SpanInfo) : Spans :=
  if mhas m k then m.map (fun p => if p.1 = k then (k, v) else p)
  else m ++ [(k, v)]

/-! ### The renderer loop (`AbstractTokenNode.GetLatexContent` /
`GetMarkdownContent`), with its optional span tracker.

The two static methods differ only in the separator (`"\n"` vs `"\n\n"`) and
the per-node render method they invoke, so they share `getContentAux`.
The `postProcess` hook of the Markdown options composes with the per-node
renderer and is subsumed by the parametric `render`. -/

structure Tracker where
  spans : Spans
  pos : Nat
deriving Repr

def getContentAux (render : Node → String) (sep : String) :
    List Node → String → Option Tracker → String × Option Tracker
  | [], content, tr => (content, tr)
  | n :: ns, content, tr =>
    -- Add the separator before non-inline nodes (but not before the first
    -- emitted content), advancing the tracker position by its length.
    let withSep : String × Option Tracker :=
      if n.inline = false ∧ content ≠ "" then
        (content ++ sep, tr.map (fun t => { t with pos := t.pos + sep.length }))
      else (content, tr)
    let start := match withSep.2 with | some t => t.pos | none => 0
    let nc := render n
    let tr2 := withSep.2.map (fun t =>
      { spans := mset t.spans n.nid ⟨start, start + nc.length, n.ntype⟩,
        pos := start + nc.length })
    getContentAux render sep ns (withSep.1 ++ nc) tr2

def GetLatexContent (render : Node → String) (nodes : List Node) : String :=
  (getContentAux render "\n" nodes "" none).1

def GetMarkdownContent (render : Node → String) (nodes : List Node) : String :=
  (getContentAux render "\n\n" nodes "" none).1

/-! ### `TokenExporter.findMissingChildSpans` and `to*WithSpans` -/

theorem Node.sizeOf_children_lt (n : Node) : sizeOf n.children < sizeOf n := by
  cases n with
  | mk d cs => simp [Node.children]

/-- The two-stage child-output search of the `findMissingChildSpans` loop body:
primary render (`getNodeContent`) first, then `getCopyContent` as fallback when
the primary output is non-empty but not found. Returns the output that was
searched for together with its found position. -/
def fmSearch (getC getCopy : Node → String) (parentContent : String) (c : Node)
    (ss : Nat) : String × Option Nat :=
  let out0 := getC c
  let pos0 := strIndexOf parentContent out0 ss
  if pos0.isNone ∧ out0.length > 0 then
    let out1 := getCopy c
    (out1, strIndexOf parentContent out1 ss)
  else (out0, pos0)

mutual
/-- The body of `findMissingChildSpans` for one node of the `nodes` argument:
if the node has children and a recorded span, search each child's rendered
output inside the parent's span range. -/
def fmNode (getC getCopy : Node → String) (content : String) (n : Node)
    (spans : Spans) : Spans :=
  if n.children.isEmpty then spans
  else
    match mget spans n.nid with
    | none => spans
    | some ps =>
      let parentContent := substr content ps.start ps.stop
      (fmChildren getC getCopy content ps parentContent n.children spans 0).1
termination_by sizeOf n
decreasing_by exact Node.sizeOf_children_lt n

/-- The children loop of `findMissingChildSpans`: `spans` accumulates found
child spans, `ss` is the advancing `searchStart` cursor. -/
def fmChildren (getC getCopy : Node → String) (content : String) (ps : SpanInfo)
    (parentContent : String) : List Node → Spans → Nat → Spans × Nat
  | [], spans, ss => (spans, ss)
  | c :: rest, spans, ss =>
    if mhas spans c.nid then
      -- Already tracked: still recurse for grandchildren.
      let spans1 := fmNode getC getCopy content c spans
      fmChildren getC getCopy content ps parentContent rest spans1 ss
    else
      -- Try the primary render first, then getCopyContent as fallback.
      match fmSearch getC getCopy parentContent c ss with
      | (out, some childPos) =>
        if out.length > 0 then
          let childStart := ps.start + childPos
          let childEnd := childStart + out.length
          let spans1 := mset spans c.nid ⟨childStart, childEnd, c.ntype⟩
          let spans2 :=
            if c.children.isEmpty then spans1
            else fmNode getC getCopy content c spans1
          fmChildren getC getCopy content ps parentContent rest spans2
            (childPos + out.length)
        else fmChildren getC getCopy content ps parentContent rest spans ss
      | (_, none) => fmChildren getC getCopy content ps parentContent rest spans ss
termination_by cs _ _ => sizeOf cs
end

/-- `findMissingChildSpans` proper: iterates the node list. -/
def fmForest (getC getCopy : Node → String) (content : String) (ns : List Node)
    (spans : Spans) : Spans :=
  ns.foldl (fun sp n => fmNode getC getCopy content n sp) spans

/-- `TokenExporter.toContentWithSpans`-shaped core of `toLatexWithSpans` /
`toMarkdownWithSpans`: primary render with a fresh tracker, then the
reconciliation pass. -/
def toContentWithSpans (render getCopy : Node → String) (sep : String)
    (nodes : List Node) : String × Spans :=
  let r := getContentAux render sep nodes "" (some ⟨[], 0⟩)
  let spans0 := match r.2 with | some t => t.spans | none => []
  (r.1, fmForest render getCopy r.1 nodes spans0)

def toLatexWithSpans (render getCopy : Node → String) (nodes : List Node) :
    String × Spans :=
  toContentWithSpans render getCopy "\n" nodes

def toMarkdownWithSpans (render getCopy : Node → String) (nodes : List Node) :
    String × Spans :=
  toContentWithSpans render getCopy "\n\n" nodes

/-! ### Renderer separator rule (claim C2) -/

theorem getContentAux_none_cons (render : Node → String) (sep : String)
    (n : Node) (ns : List Node) (c : String) :
    getContentAux render sep (n :: ns) c none =
      getContentAux render sep ns
        ((if n.inline = false ∧ c ≠ "" then c ++ sep else c) ++ render n) none := by
  by_cases h : n.inline = false ∧ c ≠ "" <;> simp [getContentAux, h]

theorem getContentAux_none_append (render : Node → String) (sep : String)
    (ns ms : List Node) (c : String) :
    getContentAux render sep (ns ++ ms) c none =
      getContentAux render sep ms (getContentAux render sep ns c none).1 none := by
  induction ns generalizing c with
  | nil => simp [getContentAux]
  | cons n ns ih =>
    rw [List.cons_append, getContentAux_none_cons, getContentAux_none_cons, ih]

theorem getContent_none_snoc (render : Node → String) (sep : String)
    (ns : List Node) (n : Node) :
    (getContentAux render sep (ns ++ [n]) "" none).1 =
      (getContentAux render sep ns "" none).1 ++
        (if n.inline = false ∧ (getContentAux render sep ns "" none).1 ≠ ""
          then sep else "") ++ render n := by
  rw [getContentAux_none_append, getContentAux_none_cons]
  by_cases h : n.inline = false ∧ (getContentAux render sep ns "" none).1 ≠ "" <;>
    simp [getContentAux, h, String.append_assoc]

/-- Claim C2: for every list of sibling nodes, `GetLatexContent`
(respectively `GetMarkdownContent`) returns the in-order concatenation of
each node's own rendered content, with the block separator `"\n"`
(respectively `"\n\n"`) inserted immediately before a node exactly when that
node is not inline and the output accumulated so far is non-empty — so never
before the first emitted content and never before inline nodes.  Stated as
the complete recursive characterization: the empty list renders to `""`, and
extending a sibling list by one node appends the separator exactly under
that condition, then the node's own content. -/
theorem renderer_separator_rule (render : Node → String) :
    (GetLatexContent render [] = "" ∧ GetMarkdownContent render [] = "") ∧
    (∀ ns n, GetLatexContent render (ns ++ [n]) =
      GetLatexContent render ns ++
        (if n.inline = false ∧ GetLatexContent render ns ≠ "" then "\n" else "") ++
        render n) ∧
    (∀ ns n, GetMarkdownContent render (ns ++ [n]) =
      GetMarkdownContent render ns ++
        (if n.inline = false ∧ GetMarkdownContent render ns ≠ "" then "\n\n" else "") ++
        render n) := by
  refine ⟨⟨rfl, rfl⟩, fun ns n => ?_, fun ns n => ?_⟩
  · exact getContent_none_snoc render "\n" ns n
  · exact getContent_none_snoc render "\n\n" ns n

/-! ### `EquationTokenNode.getLatexContent` (claim C4)

`EquationToken`: the `content` field here models the string branch of
`_getDataStr` (array-valued content concatenates the children's copy content
into the same string). `display`, `numbering` and `labels` as in the token.
JS truthiness of `numbering` (absent or empty string is falsy) is modelled by
`truthyStr`. -/

inductive DisplayType where
  | inlineD
  | blockD
deriving DecidableEq, Repr

structure EquationTok where
  content : String
  display : Option DisplayType
  numbering : Option String
  labels : List String
deriving Repr

/-- JS whitespace test (`/\s/` on the ASCII range used here). -/
def isSpaceJS (c : Char) : Bool :=
  c = ' ' ∨ c = '\t' ∨ c = '\n' ∨ c = '\r' ∨ c = '\x0b' ∨ c = '\x0c'

/-- JS `String.prototype.trim`. -/
def trimJS (s : String) : String :=
  ⟨((s.data.dropWhile isSpaceJS).reverse.dropWhile isSpaceJS).reverse⟩

/-- JS truthiness of an optional string (undefined and `""` are falsy). -/
def truthyStr : Option String → Bool
  | none => false
  | some s => s ≠ ""

/-- `EquationTokenNode.isInline`: `display != DisplayType.BLOCK`. -/
def eqIsInline (e : EquationTok) : Bool := e.display ≠ some .blockD

/-- `AbstractTokenNode.getLabelsLatex`. -/
def getLabelsLatex (labels : List String) : String :=
  if labels.isEmpty then ""
  else String.intercalate "\n" (labels.map (fun l => "\\label\x7b" ++ l ++ "\x7d")) ++ "\n"

/-- `EquationTokenNode.getLatexContent`. -/
def eqGetLatexContent (e : EquationTok) : String :=
  let dataStr := trimJS e.content
  if eqIsInline e then "$" ++ dataStr ++ "$"
  else
    let labels := getLabelsLatex e.labels
    if truthyStr e.numbering then
      "\\begin{equation}\n" ++ labels ++ dataStr ++ "\n\\end{equation}\n"
    else
      "$$\n" ++ labels ++ dataStr ++ "\n$$\n"

/-- Claim C4, counterexample: for the unnumbered block equation with
expression text `E = mc^2` and no labels, `getLatexContent` does NOT return
the claimed `"$$\nE = mc^2\n$$"` — the code appends a trailing newline to
both block forms. -/
theorem equation_block_output_cex :
    eqGetLatexContent ⟨"E = mc^2", some .blockD, none, []⟩ ≠ "$$\nE = mc^2\n$$" := by
  decide

/-- Claim C4, amended: for every equation node with no labels whose
expression text (after the renderer's trim) is `e`, the output is exactly
`$e$` when inline, `$$\ne\n$$\n` for an unnumbered block equation, and
`\begin{equation}\ne\n\end{equation}\n` for a numbered block equation (the
two block forms carry a trailing newline); and rendering the singleton list
of the inline `E = mc^2` equation yields exactly `$E = mc^2$`. -/
theorem equation_literal_output_amended :
    (∀ c : String, eqGetLatexContent ⟨c, some .inlineD, none, []⟩ = "$" ++ trimJS c ++ "$") ∧
    (∀ c : String,
      eqGetLatexContent ⟨c, some .blockD, none, []⟩ = "$$\n" ++ trimJS c ++ "\n$$\n") ∧
    (∀ (c num : String), num ≠ "" →
      eqGetLatexContent ⟨c, some .blockD, some num, []⟩ =
        "\\begin{equation}\n" ++ trimJS c ++ "\n\\end{equation}\n") ∧
    GetLatexContent (fun _ => eqGetLatexContent ⟨"E = mc^2", some .inlineD, none, []⟩)
      [Node.mk ⟨"e1", "equation", true⟩ []] = "$E = mc^2$" := by
  refine ⟨fun c => ?_, fun c => ?_, fun c num h => ?_, by decide⟩
  · simp [eqGetLatexContent, eqIsInline]
  · simp [eqGetLatexContent, eqIsInline, truthyStr, getLabelsLatex]
  · simp [eqGetLatexContent, eqIsInline, truthyStr, getLabelsLatex, h]

/-- Claim C4, witness for the amended theorem's hypothesis (`num ≠ ""`):
the numbered block equation at `x`, numbering `1`. -/
theorem equation_literal_output_amended_witness :
    ("1" : String) ≠ "" ∧
      eqGetLatexContent ⟨"x", some .blockD, some "1", []⟩ =
        "\\begin{equation}\nx\n\\end{equation}\n" :=
  ⟨by decide, equation_literal_output_amended.2.2.1 "x" "1" (by decide)⟩

/-! ### `TokenExporter` input classification and factory errors (claim C10)

Instance export methods accept either token nodes or raw tokens; the
`isTokenNodes` type guard inspects emptiness and the first element, and raw
tokens require a configured factory.  The per-kind render/copy/JSON methods
remain parametric as before. -/

structure RawToken where
  rid : Option String
  rtype : String
deriving Repr

/-- `ITokenNodeFactory.createNode(token, id)` (may return `null`). -/
abbrev Factory := RawToken → String → Option Node

inductive ExportInput where
  | nodeI (n : Node)
  | tokenI (t : RawToken)

/-- `AbstractTokenNode.GetCopyContent`: the untracked renderer loop with the
`"\n"` separator over `getCopyContent`. -/
def GetCopyContent (copy : Node → String) (nodes : List Node) : String :=
  (getContentAux copy "\n" nodes "" none).1

/-- `AbstractTokenNode.GetJSONContent`: one JSON payload per node. -/
def GetJSONContent {α : Type} (jf : Node → α) (nodes : List Node) : List α :=
  nodes.map jf

def factoryRequiredMsg : String :=
  "TokenExporter: factory required to convert raw tokens to nodes"

/-- `TokenExporter.isTokenNodes`: empty arrays are NOT classified as nodes. -/
def isTokenNodes : List ExportInput → Bool
  | [] => false
  | .nodeI _ :: _ => true
  | .tokenI _ :: _ => false

/-- `TokenExporter.tokensToNodes`: throws without a factory; skips tokens the
factory rejects. -/
def tokensToNodes (factory : Option Factory) (tokens : List RawToken) :
    Except String (List Node) :=
  match factory with
  | none => .error factoryRequiredMsg
  | some f =>
    .ok (tokens.enum.filterMap (fun p =>
      f p.2 (p.2.rid.getD ("export-" ++ toString p.1))))

/-- `TokenExporter.ensureNodes` (the TS version casts the homogeneous array;
here the corresponding projection). -/
def ensureNodes (factory : Option Factory) (input : List ExportInput) :
    Except String (List Node) :=
  if isTokenNodes input then
    .ok (input.filterMap (fun i => match i with | .nodeI n => some n | .tokenI _ => none))
  else
    tokensToNodes factory
      (input.filterMap (fun i => match i with | .nodeI _ => none | .tokenI t => some t))

def toLatexI (render : Node → String) (factory : Option Factory)
    (input : List ExportInput) : Except String String :=
  (ensureNodes factory input).map (GetLatexContent render)

def toMarkdownI (render : Node → String) (factory : Option Factory)
    (input : List ExportInput) : Except String String :=
  (ensureNodes factory input).map (GetMarkdownContent render)

def toTextI (copy : Node → String) (factory : Option Factory)
    (input : List ExportInput) : Except String String :=
  (ensureNodes factory input).map (GetCopyContent copy)

def toJSONI {α : Type} (jf : Node → α) (factory : Option Factory)
    (input : List ExportInput) : Except String (List α) :=
  (ensureNodes factory input).map (GetJSONContent jf)

inductive ExportFormat where
  | text
  | markdown
  | latex
  | json
deriving DecidableEq, Repr

inductive ExportOutput (α : Type) where
  | strOut (s : String)
  | jsonOut (l : List α)

/-- `TokenExporter.export` (instance): dispatch on the format string. -/
def exportI {α : Type} (render md copy : Node → String) (jf : Node → α)
    (factory : Option Factory) (input : List ExportInput) (format : ExportFormat) :
    Except String (ExportOutput α) :=
  match format with
  | .text => (toTextI copy factory input).map .strOut
  | .markdown => (toMarkdownI md factory input).map .strOut
  | .latex => (toLatexI render factory input).map .strOut
  | .json => (toJSONI jf factory input).map .jsonOut

/-- Static `TokenExporter.toLatex` (no factory involved). -/
def toLatexS (render : Node → String) (nodes : List Node) : String :=
  GetLatexContent render nodes

/-- Static `TokenExporter.toMarkdown`. -/
def toMarkdownS (render : Node → String) (nodes : List Node) : String :=
  GetMarkdownContent render nodes

/-- Static `TokenExporter.toText`. -/
def toTextS (copy : Node → String) (nodes : List Node) : String :=
  GetCopyContent copy nodes

/-- Claim C10: on a `TokenExporter` constructed without a factory, every
instance export method (`toLatex`, `toMarkdown`, `toText`, `toJSON`,
`export` for each format) fails with the `factory required` error even on the
empty input array, because the empty array is classified as raw tokens; the
empty input renders as `""` only through the static methods. -/
theorem factoryless_exporter_empty_input {α : Type}
    (render md copy : Node → String) (jf : Node → α) :
    toLatexI render none ([] : List ExportInput) = .error factoryRequiredMsg ∧
    toMarkdownI md none ([] : List ExportInput) = .error factoryRequiredMsg ∧
    toTextI copy none ([] : List ExportInput) = .error factoryRequiredMsg ∧
    toJSONI jf none ([] : List ExportInput) = .error factoryRequiredMsg ∧
    (∀ fmt : ExportFormat,
      exportI render md copy jf none ([] : List ExportInput) fmt =
        .error factoryRequiredMsg) ∧
    isTokenNodes ([] : List ExportInput) = false ∧
    (toLatexS render [] = "" ∧ toMarkdownS md [] = "" ∧ toTextS copy [] = "") := by
  refine ⟨rfl, rfl, rfl, rfl, fun fmt => ?_, rfl, rfl, rfl, rfl⟩
  cases fmt <;> rfl

/-! ### Stable sorting (JS `Array.prototype.sort` with a consistent
comparator is the unique stable sort; modelled by stable insertion sort). -/

def insertLeB {α : Type} (le : α → α → Bool) (x : α) : List α → List α
  | [] => [x]
  | y :: ys => if le x y then x :: y :: ys else y :: insertLeB le x ys

def sortLeB {α : Type} (le : α → α → Bool) (l : List α) : List α :=
  l.foldr (insertLeB le) []

theorem insertLeB_perm {α : Type} (le : α → α → Bool) (x : α) (l : List α) :
    List.Perm (insertLeB le x l) (x :: l) := by
  induction l with
  | nil => simp [insertLeB]
  | cons y ys ih =>
    unfold insertLeB
    by_cases h : le x y
    · simp [h]
    · simp only [h, if_false]
      exact (ih.cons y).trans (List.Perm.swap x y ys)

theorem sortLeB_perm {α : Type} (le : α → α → Bool) (l : List α) :
    List.Perm (sortLeB le l) l := by
  induction l with
  | nil => simp [sortLeB]
  | cons x xs ih =>
    exact (insertLeB_perm le x (sortLeB le xs)).trans (ih.cons x)

theorem insertLeB_pairwise {α : Type} (le : α → α → Bool)
    (htot : ∀ a b, le a b = true ∨ le b a = true)
    (htrans : ∀ a b c, le a b = true → le b c = true → le a c = true)
    (x : α) (l : List α) (hl : List.Pairwise (fun a b => le a b = true) l) :
    List.Pairwise (fun a b => le a b = true) (insertLeB le x l) := by
  induction l with
  | nil => simp [insertLeB]
  | cons y ys ih =>
    unfold insertLeB
    rw [List.pairwise_cons] at hl
    obtain ⟨hy, hys⟩ := hl
    by_cases h : le x y
    · simp only [h, if_true]
      refine List.Pairwise.cons ?_ (List.Pairwise.cons hy hys)
      intro z hz
      rcases hz with _ | hz
      · exact h
      · exact htrans x y z h (hy z (by assumption))
    · simp only [h, if_false]
      refine List.Pairwise.cons ?_ (ih hys)
      intro z hz
      have hz2 := (insertLeB_perm le x ys).mem_iff.mp hz
      rw [List.mem_cons] at hz2
      rcases hz2 with hz2 | hz2
      · rw [hz2]
        rcases htot x y with h2 | h2
        · exact absurd h2 h
        · exact h2
      · exact hy z hz2

theorem sortLeB_pairwise {α : Type} (le : α → α → Bool)
    (htot : ∀ a b, le a b = true ∨ le b a = true)
    (htrans : ∀ a b c, le a b = true → le b c = true → le a c = true)
    (l : List α) :
    List.Pairwise (fun a b => le a b = true) (sortLeB le l) := by
  induction l with
  | nil => simp [sortLeB]
  | cons x xs ih => exact insertLeB_pairwise le htot htrans x (sortLeB le xs) ih

/-! ### `SpanMatcher` (claim C3) -/

inductive MatchType where
  | mstart
  | mend
  | msingle
  | mcontains
deriving DecidableEq, Repr

structure MatchResult where
  nodeId : String
  nodeType : String
  matchType : MatchType
  offset : Option Nat
deriving DecidableEq, Repr

structure NormalizationResult where
  normalized : String
  posMap : List Nat
deriving DecidableEq, Repr

/-- Comparator of the constructor's pre-sort: ascending span start. -/
def startLe (a b : String × SpanInfo) : Bool := decide (a.2.start ≤ b.2.start)

/-- Comparator of the range query's sort: ascending span width. -/
def widthLe (a b : String × SpanInfo) : Bool :=
  decide (a.2.stop - a.2.start ≤ b.2.stop - b.2.start)

/-- The overlap test of `findNodesForRange`:
`span.start < end && span.end > start`. -/
def overlapsB (start stop : Nat) (e : String × SpanInfo) : Bool :=
  decide (e.2.start < stop ∧ e.2.stop > start)

/-- The match-type decision of `findNodesForRange` for one overlapping span
(`containsStart` / `containsEnd` are the code's boolean conditions). -/
def classifyRange (start stop : Nat) (e : String × SpanInfo) : MatchResult :=
  if (start ≥ e.2.start ∧ start < e.2.stop) ∧ (stop > e.2.start ∧ stop ≤ e.2.stop) then
    ⟨e.1, e.2.type, .msingle, some (start - e.2.start)⟩
  else if start ≥ e.2.start ∧ start < e.2.stop then
    ⟨e.1, e.2.type, .mstart, some (start - e.2.start)⟩
  else if stop > e.2.start ∧ stop ≤ e.2.stop then
    ⟨e.1, e.2.type, .mend, some (stop - e.2.start)⟩
  else
    ⟨e.1, e.2.type, .mcontains, none⟩

/-- `SpanMatcher.findNodesForRange` over the constructor-sorted span list. -/
def findNodesForRange (sortedSpans : List (String × SpanInfo)) (start stop : Nat) :
    List MatchResult :=
  let matching := sortedSpans.filter (overlapsB start stop)
  let sorted := sortLeB widthLe matching
  sorted.map (classifyRange start stop)

structure SpanMatcherS where
  spans : Spans
  fullText : String
  normalizer : Option (String → NormalizationResult)

/-- The constructor's `sortedSpans` (pre-sorted by start position). -/
def SpanMatcherS.sortedSpans (m : SpanMatcherS) : List (String × SpanInfo) :=
  sortLeB startLe m.spans

/-- The constructor's cached `(normalizedText, posMap)` (identity map when no
normalizer is configured). -/
def SpanMatcherS.normState (m : SpanMatcherS) : String × List Nat :=
  match m.normalizer with
  | some nz => let r := nz m.fullText; (r.normalized, r.posMap)
  | none => (m.fullText, List.range m.fullText.length)

/-- The `while (true)` search loop of `matchExcerpt`; `fuel` bounds the
number of iterations (each iteration advances `searchStart`, so
`searchText.length + 2` iterations always suffice). -/
def matchLoop (sortedSpans : List (String × SpanInfo)) (searchText searchExcerpt : String)
    (useNorm : Bool) (posMap : List Nat) (excerptLen : Nat) (findAll : Bool) :
    Nat → Nat → List MatchResult → List MatchResult
  | 0, _, acc => acc
  | fuel + 1, searchStart, acc =>
    match strIndexOf searchText searchExcerpt searchStart with
    | none => acc
    | some matchIndex =>
      let originalStart := if useNorm then posMap.getD matchIndex 0 else matchIndex
      let originalEnd :=
        if useNorm then posMap.getD (matchIndex + searchExcerpt.length - 1) 0 + 1
        else matchIndex + excerptLen
      let acc2 := acc ++ findNodesForRange sortedSpans originalStart originalEnd
      if findAll then
        matchLoop sortedSpans searchText searchExcerpt useNorm posMap excerptLen findAll
          fuel (matchIndex + 1) acc2
      else acc2

/-- `SpanMatcher.matchExcerpt` (options `useNormalization` and `findAll`). -/
def matchExcerpt (m : SpanMatcherS) (excerpt : String)
    (useNormOpt : Option Bool := none) (findAll : Bool := false) : List MatchResult :=
  let useNorm := useNormOpt.getD m.normalizer.isSome
  let searchExcerpt :=
    if useNorm then
      match m.normalizer with
      | some nz => (nz excerpt).normalized
      | none => excerpt
    else excerpt
  let searchText := if useNorm then m.normState.1 else m.fullText
  matchLoop m.sortedSpans searchText searchExcerpt useNorm m.normState.2 excerpt.length
    findAll (searchText.length + 2) 0 []

theorem classifyRange_nodeId (a b : Nat) (e : String × SpanInfo) :
    (classifyRange a b e).nodeId = e.1 := by
  unfold classifyRange; split_ifs <;> rfl

/-- The spans of the `"Hello World"` excerpt-matching example. -/
def exSpans : Spans := [("0", ⟨0, 6, "text"⟩), ("1", ⟨6, 11, "text"⟩)]

/-- The matcher of the `"Hello World"` example (no normalizer). -/
def exMatcher : SpanMatcherS := ⟨exSpans, "Hello World", none⟩

/-- Claim C3: for every span map and range `[start, end)`, the internal
classifier of `matchExcerpt` produces one `MatchResult` per overlapping span
(`span.start < end ∧ span.end > start`), in ascending span-width order, with
`single` and offset `start - span.start` when both range boundaries lie
inside the span, `start` with offset `start - span.start` when only the left
boundary does, `end` with offset `end - span.start` when only the right one
does, and `contains` with no offset otherwise; and on content
`"Hello World"` with node spans `[0,6)` and `[6,11)`,
`matchExcerpt "lo Wo"` yields exactly a `start` result in node `0` with
offset `3` and an `end` result in node `1`. -/
theorem range_overlap_classification :
    (∀ (ss : List (String × SpanInfo)) (a b : Nat),
      findNodesForRange ss a b =
        (sortLeB widthLe (ss.filter (overlapsB a b))).map (classifyRange a b)) ∧
    (∀ (ss : List (String × SpanInfo)) (a b : Nat),
      List.Perm ((findNodesForRange ss a b).map MatchResult.nodeId)
        ((ss.filter (overlapsB a b)).map Prod.fst)) ∧
    (∀ (ss : List (String × SpanInfo)) (a b : Nat),
      List.Pairwise (fun x y => widthLe x y = true)
        (sortLeB widthLe (ss.filter (overlapsB a b)))) ∧
    (∀ (a b : Nat) (e : String × SpanInfo),
      (classifyRange a b e).nodeId = e.1 ∧
      (classifyRange a b e).nodeType = e.2.type ∧
      (e.2.start ≤ a ∧ a < e.2.stop → e.2.start < b ∧ b ≤ e.2.stop →
        (classifyRange a b e).matchType = .msingle ∧
        (classifyRange a b e).offset = some (a - e.2.start)) ∧
      (e.2.start ≤ a ∧ a < e.2.stop → ¬(e.2.start < b ∧ b ≤ e.2.stop) →
        (classifyRange a b e).matchType = .mstart ∧
        (classifyRange a b e).offset = some (a - e.2.start)) ∧
      (¬(e.2.start ≤ a ∧ a < e.2.stop) → e.2.start < b ∧ b ≤ e.2.stop →
        (classifyRange a b e).matchType = .mend ∧
        (classifyRange a b e).offset = some (b - e.2.start)) ∧
      (¬(e.2.start ≤ a ∧ a < e.2.stop) → ¬(e.2.start < b ∧ b ≤ e.2.stop) →
        (classifyRange a b e).matchType = .mcontains ∧
        (classifyRange a b e).offset = none)) ∧
    matchExcerpt exMatcher "lo Wo" none false =
      [⟨"1", "text", .mend, some 2⟩, ⟨"0", "text", .mstart, some 3⟩] := by
  refine ⟨fun ss a b => rfl, fun ss a b => ?_, fun ss a b => ?_,
    fun a b e => ?_, by decide⟩
  · have h1 : (findNodesForRange ss a b).map MatchResult.nodeId
        = (sortLeB widthLe (ss.filter (overlapsB a b))).map Prod.fst := by
      unfold findNodesForRange
      simp only [List.map_map]
      exact List.map_congr_left (fun e _ => classifyRange_nodeId a b e)
    rw [h1]
    exact (sortLeB_perm widthLe _).map Prod.fst
  · refine sortLeB_pairwise widthLe ?_ ?_ _
    · intro x y; simp only [widthLe, decide_eq_true_eq]; omega
    · intro x y z; simp only [widthLe, decide_eq_true_eq]; omega
  · refine ⟨classifyRange_nodeId a b e, ?_, ?_, ?_, ?_, ?_⟩
    · unfold classifyRange; split_ifs <;> rfl
    · intro h1 h2
      unfold classifyRange
      rw [if_pos ⟨⟨h1.1, h1.2⟩, ⟨h2.1, h2.2⟩⟩]
      exact ⟨rfl, rfl⟩
    · intro h1 h2
      unfold classifyRange
      rw [if_neg (fun hc => h2 hc.2), if_pos ⟨h1.1, h1.2⟩]
      exact ⟨rfl, rfl⟩
    · intro h1 h2
      unfold classifyRange
      rw [if_neg (fun hc => h1 hc.1), if_neg h1, if_pos ⟨h2.1, h2.2⟩]
      exact ⟨rfl, rfl⟩
    · intro h1 h2
      unfold classifyRange
      rw [if_neg (fun hc => h1 hc.1), if_neg h1, if_neg h2]
      exact ⟨rfl, rfl⟩

/-! ### The LaTeX normalizer pipeline (claim C5)

`applyRemovals` / `applyReplacements` / `normalizeWhitespace` from
`normalizeWhitespace.ts`, composed by `createLatexNormalizer`.  The two noise
regexes (`\\label\{[^}]*\}` and `(?<!\\)%[^\n]*` with the `g` flag) are
realized as scanners producing the same non-overlapping leftmost match list
as repeated `exec`; all loops take an explicit iteration bound (`fuel`) large
enough to reproduce the JS loop exactly, so the kernel can evaluate them. -/

/-- Index of the first `}` in the list, if any. -/
def findCloseBraceIdx : List Char → Option Nat
  | [] => none
  | c :: cs => if c = '\x7d' then some 0 else (findCloseBraceIdx cs).map (· + 1)

/-- The literal prefix of the label pattern (`\label{`). -/
def labelHead : List Char := "\\label\x7b".data

/-- All `g`-flag matches of `/\\label\{[^}]*\}/` as `(start, length)` pairs. -/
def scanLabelMatches : Nat → List Char → Nat → List (Nat × Nat)
  | 0, _, _ => []
  | _, [], _ => []
  | fuel + 1, c :: cs, i =>
    if labelHead.isPrefixOf (c :: cs) then
      match findCloseBraceIdx ((c :: cs).drop 7) with
      | some j =>
        (i, 8 + j) :: scanLabelMatches fuel ((c :: cs).drop (8 + j)) (i + 8 + j)
      | none => scanLabelMatches fuel cs (i + 1)
    else scanLabelMatches fuel cs (i + 1)

/-- All `g`-flag matches of `/(?<!\\)%[^\n]*/` as `(start, length)` pairs
(`prev` is the character before the current position, for the lookbehind). -/
def scanCommentMatches : Nat → List Char → Nat → Option Char → List (Nat × Nat)
  | 0, _, _, _ => []
  | _, [], _, _ => []
  | fuel + 1, c :: cs, i, prev =>
    if c = '%' ∧ prev ≠ some '\\' then
      let body := cs.takeWhile (fun ch => decide (ch ≠ '\n'))
      let len := 1 + body.length
      (i, len) :: scanCommentMatches fuel ((c :: cs).drop len) (i + len)
        (some (body.getLastD '%'))
    else scanCommentMatches fuel cs (i + 1) (some c)

def labelMatcher (s : List Char) : List (Nat × Nat) :=
  scanLabelMatches (s.length + 1) s 0

def commentMatcher (s : List Char) : List (Nat × Nat) :=
  scanCommentMatches (s.length + 1) s 0 none

/-- The deletion walk of `applyRemovals`: copy characters (recording their
original index) and skip a removal exactly when the cursor sits on its start. -/
def removalsWalk : Nat → List Char → Nat → List (Nat × Nat) → List Char × List Nat
  | 0, _, _, _ => ([], [])
  | _, [], _, _ => ([], [])
  | fuel + 1, c :: rest, origIndex, removals =>
    match removals with
    | (rs, rl) :: rtail =>
      if origIndex = rs then
        removalsWalk fuel ((c :: rest).drop rl) (origIndex + rl) rtail
      else
        let r := removalsWalk fuel rest (origIndex + 1) ((rs, rl) :: rtail)
        (c :: r.1, origIndex :: r.2)
    | [] =>
      let r := removalsWalk fuel rest (origIndex + 1) []
      (c :: r.1, origIndex :: r.2)

/-- `applyRemovals`: collect all pattern matches, sort them by start position
(stably), then walk the text once. -/
def applyRemovals (text : List Char)
    (patterns : List (List Char → List (Nat × Nat))) : List Char × List Nat :=
  let removals := (patterns.map (fun p => p text)).flatten
  let sorted := sortLeB (fun a b => decide (a.1 ≤ b.1)) removals
  removalsWalk (text.length + removals.length + 1) text 0 sorted

/-- JS `replace(/\$\$([\s\S]*?)\$\$/g, "\\[$1\\]")`: rewrite each lazy
`$$...$$` pair into `\[...\]`. -/
def replaceDollarDollar : Nat → List Char → List Char
  | 0, s => s
  | fuel + 1, s =>
    match idxScan s ['$', '$'] 0 (s.length + 1) with
    | none => s
    | some i =>
      match idxScan s ['$', '$'] (i + 2) (s.length + 1) with
      | none => s
      | some j =>
        s.take i ++ ['\\', '['] ++ ((s.drop (i + 2)).take (j - (i + 2)))
          ++ ['\\', ']'] ++ replaceDollarDollar fuel (s.drop (j + 2))

/-- The approximate position-map rebuild of `applyReplacements` (char-by-char
diff between the pre- and post-replacement strings). -/
def rebuildPosAux : Nat → List Char → List Char → List Nat → Nat → List Nat
  | 0, _, _, _, _ => []
  | _, [], _, _, _ => []
  | fuel + 1, c :: ct, pt, pm, lastPM =>
    match pt, pm with
    | p :: pts, q :: qms =>
      if c = p then q :: rebuildPosAux fuel ct pts qms lastPM
      else q :: rebuildPosAux fuel ct (p :: pts) (q :: qms) lastPM
    | [], q :: qms => q :: rebuildPosAux fuel ct [] (q :: qms) lastPM
    | _, [] => lastPM :: rebuildPosAux fuel ct pt [] lastPM

/-- `applyReplacements` for the LaTeX normalizer's single display-math
pattern: replace, and rebuild the position map only if the length changed. -/
def applyReplacements (text : List Char) (posMap : List Nat) :
    List Char × List Nat :=
  let newText := replaceDollarDollar (text.length + 1) text
  if newText.length ≠ text.length then
    (newText, rebuildPosAux (newText.length + 1) newText text posMap (posMap.getLastD 0))
  else (newText, posMap)

/-- `normalizeWhitespace`: collapse whitespace runs to one space (or strip
them entirely), keeping the first original index of each run. -/
def nwAux : List Char → List Nat → Bool → Bool → List Char × List Nat
  | [], _, _, _ => ([], [])
  | _ :: _, [], _, _ => ([], [])
  | c :: cs, q :: qs, lastWasSpace, stripAll =>
    if isSpaceJS c then
      if stripAll then nwAux cs qs lastWasSpace stripAll
      else if lastWasSpace then nwAux cs qs true stripAll
      else
        let r := nwAux cs qs true stripAll
        (' ' :: r.1, q :: r.2)
    else
      let r := nwAux cs qs false stripAll
      (c :: r.1, q :: r.2)

/-- `createLatexNormalizer(options).normalize`: removals, then replacements,
then whitespace normalization. -/
def latexNormalize (stripAll : Bool) (text : String) : NormalizationResult :=
  let r1 := applyRemovals text.data [labelMatcher, commentMatcher]
  let r2 := applyReplacements r1.1 r1.2
  let r3 := nwAux r2.1 r2.2 false stripAll
  ⟨⟨r3.1⟩, r3.2⟩

/-- The default `LatexNormalizer` (whitespace collapsed, not stripped). -/
def LatexNormalizer (text : String) : NormalizationResult :=
  latexNormalize false text

/-- Claim C5: `LatexNormalizer.normalize("A\\label{x}B")` returns normalized
text exactly `"AB"` with `posMap = [0, 10]` — the removal pass deletes the
label command while recording, for each retained character, its original
index. -/
theorem latex_normalizer_label_strip :
    LatexNormalizer "A\\label{x}B" = ⟨"AB", [0, 10]⟩ := by
  decide

/-! ### Fuzzy similarity (claim C7)

`similarity` computes the longest-common-subsequence ratio with a two-row
dynamic program (`prev` / `curr`).  `lcsLen` is the textbook recursive LCS
length used as the specification; the DP is proved equal to it below. -/

/-- Specification: longest-common-subsequence length. -/
def lcsLen : List Char → List Char → Nat
  | [], _ => 0
  | _ :: _, [] => 0
  | x :: xs, y :: ys =>
    if x = y then lcsLen xs ys + 1
    else max (lcsLen xs (y :: ys)) (lcsLen (x :: xs) ys)
termination_by a b => a.length + b.length

/-- One cell-by-cell pass of the DP inner loop: `diag` is `prev[j-1]`,
`left` is `curr[j-1]`, and the list argument carries `prev[j], prev[j+1], …`
aligned with the remaining characters of `b`. -/
def dpRowAux (ai : Char) : List Char → List Nat → Nat → Nat → List Nat
  | [], _, _, _ => []
  | _ :: _, [], _, _ => []
  | bj :: bs, pj :: ps, diag, left =>
    let cj := if ai = bj then diag + 1 else max pj left
    cj :: dpRowAux ai bs ps pj cj

/-- One iteration of the DP outer loop (`curr[0] = 0`, then the inner loop). -/
def dpRow (ai : Char) (b : List Char) (prev : List Nat) : List Nat :=
  match prev with
  | [] => []
  | p0 :: ps => 0 :: dpRowAux ai b ps p0 0

/-- The two-row LCS dynamic program of `similarity` (final `prev[n]`). -/
def lcsDP (a b : List Char) : Nat :=
  (a.foldl (fun prev ai => dpRow ai b prev) (List.replicate (b.length + 1) 0)).getLastD 0

/-- `similarity(a, b)`: 0 when either string is empty, 1 when identical,
else `2 * LCS / (m + n)` (exact rational arithmetic for the JS float). -/
def similarity (a b : String) : ℚ :=
  if a.length = 0 ∨ b.length = 0 then 0
  else if a = b then 1
  else (2 * (lcsDP a.data b.data : ℚ)) / ((a.length : ℚ) + (b.length : ℚ))

theorem lcsLen_nil_left (b : List Char) : lcsLen [] b = 0 := by
  simp [lcsLen]

theorem lcsLen_nil_right (a : List Char) : lcsLen a [] = 0 := by
  cases a <;> simp [lcsLen]

theorem lcsLen_cons_cons (x y : Char) (xs ys : List Char) :
    lcsLen (x :: xs) (y :: ys) =
      if x = y then lcsLen xs ys + 1
      else max (lcsLen xs (y :: ys)) (lcsLen (x :: xs) ys) := by
  simp [lcsLen]

theorem lcsLen_self (a : List Char) : lcsLen a a = a.length := by
  induction a with
  | nil => simp [lcsLen]
  | cons x xs ih => simp [lcsLen_cons_cons, ih]

theorem lcsLen_comm_aux : ∀ (n : Nat) (a b : List Char), a.length + b.length ≤ n →
    lcsLen a b = lcsLen b a := by
  intro n
  induction n with
  | zero =>
    intro a b h
    have ha : a = [] := by cases a <;> simp_all
    have hb : b = [] := by cases b <;> simp_all
    subst ha; subst hb; rfl
  | succ n ih =>
    intro a b h
    match a, b with
    | [], b => rw [lcsLen_nil_left, lcsLen_nil_right]
    | a :: as, [] => rw [lcsLen_nil_left, lcsLen_nil_right]
    | x :: xs, y :: ys =>
      rw [lcsLen_cons_cons, lcsLen_cons_cons]
      simp only [List.length_cons] at h
      by_cases hxy : x = y
      · rw [if_pos hxy, if_pos hxy.symm, ih xs ys (by omega)]
      · rw [if_neg hxy, if_neg (Ne.symm hxy),
          ih xs (y :: ys) (by simp; omega), ih (x :: xs) ys (by simp; omega),
          Nat.max_comm]

theorem lcsLen_comm (a b : List Char) : lcsLen a b = lcsLen b a :=
  lcsLen_comm_aux (a.length + b.length) a b le_rfl

theorem lcsLen_singleton (x : Char) (zs : List Char) :
    lcsLen [x] zs = if x ∈ zs then 1 else 0 := by
  induction zs with
  | nil => simp [lcsLen_nil_right]
  | cons z zs ih =>
    rw [lcsLen_cons_cons]
    by_cases hxz : x = z
    · simp [hxz, lcsLen_nil_left]
    · simp [hxz, lcsLen_nil_left, ih]

theorem lcsLen_snoc_aux : ∀ (n : Nat) (xs ys : List Char) (x y : Char),
    xs.length + ys.length ≤ n →
    lcsLen (xs ++ [x]) (ys ++ [y]) =
      if x = y then lcsLen xs ys + 1
      else max (lcsLen (xs ++ [x]) ys) (lcsLen xs (ys ++ [y])) := by
  intro n
  induction n with
  | zero =>
    intro xs ys x y h
    have hx : xs = [] := by cases xs <;> simp_all
    have hy : ys = [] := by cases ys <;> simp_all
    subst hx; subst hy
    simp [lcsLen_cons_cons, lcsLen_nil_left, lcsLen_nil_right]
  | succ n ih =>
    intro xs ys x y hlen
    match xs, ys with
    | [], ys =>
      simp only [List.nil_append]
      rw [lcsLen_singleton, lcsLen_singleton, lcsLen_nil_left, lcsLen_nil_left]
      by_cases hxy : x = y <;> by_cases hm : x ∈ ys <;>
        simp [List.mem_append, hxy, hm]
    | u :: us, [] =>
      simp only [List.nil_append]
      rw [lcsLen_nil_right, lcsLen_comm (u :: us ++ [x]) [y], lcsLen_singleton,
        lcsLen_comm (u :: us) [y], lcsLen_singleton, lcsLen_nil_right]
      by_cases hxy : x = y
      · subst hxy
        simp [List.mem_cons, List.mem_append]
      · by_cases hm : y ∈ u :: us
        · have hmem : y ∈ u :: (us ++ [x]) := by
            simp only [List.mem_cons, List.mem_append] at hm ⊢
            tauto
          simp [hxy, hm, hmem]
        · have hmem : y ∉ u :: (us ++ [x]) := by
            simp only [List.mem_cons, List.mem_append, List.mem_singleton] at hm ⊢
            push_neg at hm ⊢
            exact ⟨hm.1, hm.2, fun h => hxy h.symm, List.not_mem_nil y⟩
          simp [hxy, hm, hmem]
    | u :: us, v :: vs =>
      simp only [List.length_cons] at hlen
      simp only [List.cons_append]
      by_cases huv : u = v <;> by_cases hxy : x = y
      · have hA : lcsLen (u :: (us ++ [x])) (v :: (vs ++ [y])) =
            lcsLen (us ++ [x]) (vs ++ [y]) + 1 := by
          rw [lcsLen_cons_cons, if_pos huv]
        have hB : lcsLen (u :: us) (v :: vs) = lcsLen us vs + 1 := by
          rw [lcsLen_cons_cons, if_pos huv]
        have hI1 : lcsLen (us ++ [x]) (vs ++ [y]) = lcsLen us vs + 1 := by
          rw [ih us vs x y (by omega), if_pos hxy]
        rw [if_pos hxy, hA, hB, hI1]
      · have hA : lcsLen (u :: (us ++ [x])) (v :: (vs ++ [y])) =
            lcsLen (us ++ [x]) (vs ++ [y]) + 1 := by
          rw [lcsLen_cons_cons, if_pos huv]
        have hI1 : lcsLen (us ++ [x]) (vs ++ [y]) =
            max (lcsLen (us ++ [x]) vs) (lcsLen us (vs ++ [y])) := by
          rw [ih us vs x y (by omega), if_neg hxy]
        have hC : lcsLen (u :: (us ++ [x])) (v :: vs) =
            lcsLen (us ++ [x]) vs + 1 := by
          rw [lcsLen_cons_cons, if_pos huv]
        have hD : lcsLen (u :: us) (v :: (vs ++ [y])) =
            lcsLen us (vs ++ [y]) + 1 := by
          rw [lcsLen_cons_cons, if_pos huv]
        rw [if_neg hxy, hA, hI1, hC, hD]
        omega
      · have hA : lcsLen (u :: (us ++ [x])) (v :: (vs ++ [y])) =
            max (lcsLen (us ++ [x]) (v :: (vs ++ [y])))
              (lcsLen (u :: (us ++ [x])) (vs ++ [y])) := by
          rw [lcsLen_cons_cons, if_neg huv]
        have hI2 : lcsLen (us ++ [x]) (v :: (vs ++ [y])) =
            lcsLen us (v :: vs) + 1 := by
          have := ih us (v :: vs) x y (by simp; omega)
          simp only [List.cons_append] at this
          rw [this, if_pos hxy]
        have hI3 : lcsLen (u :: (us ++ [x])) (vs ++ [y]) =
            lcsLen (u :: us) vs + 1 := by
          have := ih (u :: us) vs x y (by simp; omega)
          simp only [List.cons_append] at this
          rw [this, if_pos hxy]
        have hB : lcsLen (u :: us) (v :: vs) =
            max (lcsLen us (v :: vs)) (lcsLen (u :: us) vs) := by
          rw [lcsLen_cons_cons, if_neg huv]
        rw [if_pos hxy, hA, hI2, hI3, hB]
        omega
      · have hA : lcsLen (u :: (us ++ [x])) (v :: (vs ++ [y])) =
            max (lcsLen (us ++ [x])  (v :: (vs ++ [y])))
              (lcsLen (u :: (us ++ [x])) (vs ++ [y])) := by
          rw [lcsLen_cons_cons, if_neg huv]
        have hI2 : lcsLen (us ++ [x]) (v :: (vs ++ [y])) =
            max (lcsLen (us ++ [x]) (v :: vs)) (lcsLen us (v :: (vs ++ [y]))) := by
          have := ih us (v :: vs) x y (by simp; omega)
          simp only [List.cons_append] at this
          rw [this, if_neg hxy]
        have hI3 : lcsLen (u :: (us ++ [x])) (vs ++ [y]) =
            max (lcsLen (u :: (us ++ [x])) vs) (lcsLen (u :: us) (vs ++ [y])) := by
          have := ih (u :: us) vs x y (by simp; omega)
          simp only [List.cons_append] at this
          rw [this, if_neg hxy]
        have hC : lcsLen (u :: (us ++ [x])) (v :: vs) =
            max (lcsLen (us ++ [x]) (v :: vs)) (lcsLen (u :: (us ++ [x])) vs) := by
          rw [lcsLen_cons_cons, if_neg huv]
        have hD : lcsLen (u :: us) (v :: (vs ++ [y])) =
            max (lcsLen us (v :: (vs ++ [y]))) (lcsLen (u :: us) (vs ++ [y])) := by
          rw [lcsLen_cons_cons, if_neg huv]
        rw [if_neg hxy, hA, hI2, hI3, hC, hD]
        omega

theorem lcsLen_snoc (xs ys : List Char) (x y : Char) :
    lcsLen (xs ++ [x]) (ys ++ [y]) =
      if x = y then lcsLen xs ys + 1
      else max (lcsLen (xs ++ [x]) ys) (lcsLen xs (ys ++ [y])) :=
  lcsLen_snoc_aux (xs.length + ys.length) xs ys x y le_rfl

/-- The row of DP cell values past a processed prefix `D` of `b`:
entry `k` is `LCS(A, D ++ bs.take (k+1))`. -/
def rowTail (A : List Char) : List Char → List Char → List Nat
  | _, [] => []
  | D, bj :: bs => lcsLen A (D ++ [bj]) :: rowTail A (D ++ [bj]) bs

theorem dpRowAux_spec (ai : Char) (A : List Char) :
    ∀ (bs D : List Char),
      dpRowAux ai bs (rowTail A D bs) (lcsLen A D) (lcsLen (A ++ [ai]) D) =
        rowTail (A ++ [ai]) D bs := by
  intro bs
  induction bs with
  | nil => intro D; rfl
  | cons bj bs ih =>
    intro D
    have hc : (if ai = bj then lcsLen A D + 1
        else max (lcsLen A (D ++ [bj])) (lcsLen (A ++ [ai]) D)) =
        lcsLen (A ++ [ai]) (D ++ [bj]) := by
      rw [lcsLen_snoc A D ai bj, Nat.max_comm]
    simp only [rowTail, dpRowAux, hc, ih (D ++ [bj])]

/-- The full DP row for processed input prefix `A`. -/
def fullRow (A b : List Char) : List Nat := lcsLen A [] :: rowTail A [] b

theorem dpRow_fullRow (ai : Char) (A b : List Char) :
    dpRow ai b (fullRow A b) = fullRow (A ++ [ai]) b := by
  unfold fullRow dpRow
  have h0 : lcsLen (A ++ [ai]) [] = 0 := lcsLen_nil_right _
  calc 0 :: dpRowAux ai b (rowTail A [] b) (lcsLen A []) 0
      = 0 :: dpRowAux ai b (rowTail A [] b) (lcsLen A []) (lcsLen (A ++ [ai]) []) := by
        rw [h0]
    _ = 0 :: rowTail (A ++ [ai]) [] b := by rw [dpRowAux_spec]
    _ = lcsLen (A ++ [ai]) [] :: rowTail (A ++ [ai]) [] b := by rw [h0]

theorem rowTail_nil_left : ∀ (bs D : List Char),
    rowTail [] D bs = List.replicate bs.length 0 := by
  intro bs
  induction bs with
  | nil => intro D; rfl
  | cons bj bs ih =>
    intro D
    simp [rowTail, lcsLen_nil_left, ih (D ++ [bj]), List.replicate_succ]

theorem fullRow_nil (b : List Char) :
    fullRow [] b = List.replicate (b.length + 1) 0 := by
  simp [fullRow, lcsLen_nil_left, rowTail_nil_left, List.replicate_succ]

theorem foldl_dpRow (b : List Char) : ∀ (rest A : List Char),
    rest.foldl (fun prev ai => dpRow ai b prev) (fullRow A b) =
      fullRow (A ++ rest) b := by
  intro rest
  induction rest with
  | nil => intro A; simp
  | cons a1 rest ih =>
    intro A
    rw [List.foldl_cons, dpRow_fullRow, ih (A ++ [a1])]
    simp

theorem rowTail_getLastD (A : List Char) : ∀ (bs D : List Char),
    (rowTail A D bs).getLastD (lcsLen A D) = lcsLen A (D ++ bs) := by
  intro bs
  induction bs with
  | nil => intro D; simp [rowTail]
  | cons bj bs ih =>
    intro D
    rw [rowTail, List.getLastD_cons, ih (D ++ [bj])]
    simp

/-- The two-row DP of `similarity` computes the LCS length. -/
theorem lcsDP_eq_lcsLen (a b : List Char) : lcsDP a b = lcsLen a b := by
  unfold lcsDP
  rw [← fullRow_nil, foldl_dpRow b a [], List.nil_append]
  unfold fullRow
  rw [List.getLastD_cons, rowTail_getLastD a b []]
  rfl

theorem string_length_zero_iff (a : String) : a.length = 0 ↔ a = "" := by
  rw [String.ext_iff]
  cases a with
  | mk l => simp [String.length, List.length_eq_zero]

/-- Claim C7, counterexample: `similarity(a, a) = 1` fails for the empty
string — the emptiness check precedes the identity shortcut, so
`similarity("", "") = 0`. -/
theorem fuzzy_similarity_identity_cex : similarity "" "" ≠ 1 := by decide

/-- Claim C7, amended: `similarity(a, a) = 1` for every NON-EMPTY `a` (the
empty string yields 0 by the emptiness check); `similarity(a, "") = 0`;
`similarity` is symmetric and equals the longest-common-subsequence ratio
`2·LCS(a,b)/(|a|+|b|)` (with both sides 0 when both strings are empty); and
`similarity("hello world", "hello worlds") > 0.9`,
`similarity("hello", "goodbye") < 0.5`. -/
theorem fuzzy_similarity_amended :
    (∀ a : String, a ≠ "" → similarity a a = 1) ∧
    similarity "" "" = 0 ∧
    (∀ a : String, similarity a "" = 0) ∧
    (∀ a b : String, similarity a b = similarity b a) ∧
    (∀ a b : String, similarity a b =
      2 * (lcsLen a.data b.data : ℚ) / ((a.length : ℚ) + (b.length : ℚ))) ∧
    similarity "hello world" "hello worlds" > 9 / 10 ∧
    similarity "hello" "goodbye" < 1 / 2 := by
  have hone : ∀ a : String, a ≠ "" → similarity a a = 1 := by
    intro a ha
    have h0 : ¬(a.length = 0 ∨ a.length = 0) := by
      rw [string_length_zero_iff]
      tauto
    unfold similarity
    rw [if_neg h0, if_pos rfl]
  have hformula : ∀ a b : String, similarity a b =
      2 * (lcsLen a.data b.data : ℚ) / ((a.length : ℚ) + (b.length : ℚ)) := by
    intro a b
    by_cases h0 : a.length = 0 ∨ b.length = 0
    · have l : similarity a b = 0 := by unfold similarity; rw [if_pos h0]
      rw [l]
      rcases h0 with h | h
      · have ha : a = "" := (string_length_zero_iff a).mp h
        subst ha
        rw [show ("" : String).data = [] from rfl, lcsLen_nil_left]
        simp
      · have hb : b = "" := (string_length_zero_iff b).mp h
        subst hb
        rw [show ("" : String).data = [] from rfl, lcsLen_nil_right]
        simp
    · by_cases hab : a = b
      · have l : similarity a b = 1 := by
          unfold similarity; rw [if_neg h0, if_pos hab]
        rw [l]
        subst hab
        rw [lcsLen_self]
        push_neg at h0
        have hl : (a.length : ℚ) ≠ 0 := by exact_mod_cast h0.1
        have hdl : a.data.length = a.length := rfl
        rw [hdl]
        field_simp
        ring
      · have l : similarity a b =
            2 * (lcsDP a.data b.data : ℚ) / ((a.length : ℚ) + (b.length : ℚ)) := by
          unfold similarity; rw [if_neg h0, if_neg hab]
        rw [l, lcsDP_eq_lcsLen]
  refine ⟨hone, by norm_num [hformula, lcsLen_nil_left], ?_, ?_, hformula, ?_, ?_⟩
  · intro a
    rw [hformula]
    rw [show ("" : String).data = [] from rfl, lcsLen_nil_right]
    simp
  · intro a b
    rw [hformula, hformula, lcsLen_comm]
    ring
  · have l : similarity "hello world" "hello worlds" =
        2 * (lcsDP "hello world".data "hello worlds".data : ℚ) /
          ((("hello world" : String).length : ℚ) +
            (("hello worlds" : String).length : ℚ)) := by
      unfold similarity
      rw [if_neg (by decide), if_neg (by decide)]
    rw [l, show lcsDP "hello world".data "hello worlds".data = 11 from by decide,
      show ("hello world" : String).length = 11 from rfl,
      show ("hello worlds" : String).length = 12 from rfl]
    norm_num
  · have l : similarity "hello" "goodbye" =
        2 * (lcsDP "hello".data "goodbye".data : ℚ) /
          ((("hello" : String).length : ℚ) + (("goodbye" : String).length : ℚ)) := by
      unfold similarity
      rw [if_neg (by decide), if_neg (by decide)]
    rw [l, show lcsDP "hello".data "goodbye".data = 1 from by decide,
      show ("hello" : String).length = 5 from rfl,
      show ("goodbye" : String).length = 7 from rfl]
    norm_num

/-- Claim C7, witness for the amended identity hypothesis (`a ≠ ""`). -/
theorem fuzzy_similarity_amended_witness :
    ("x" : String) ≠ "" ∧ similarity "x" "x" = 1 :=
  ⟨by decide, fuzzy_similarity_amended.1 "x" (by decide)⟩

/-! ### Leaf filtering (`filterToLeafRange`, claim C6) -/

/-- Modelled from the spec: `LEAF_TOKEN_TYPES` is imported from the types
module but its definition is not among the provided sources; the spec fixes
the whitelist as text, equation, equation-array, code, reference, citation
(the `TokenType` string values of those kinds). -/
def LEAF_TOKEN_TYPES : List String :=
  ["text", "equation", "equation_array", "code", "ref", "citation"]

def isStartOrSingle (m : MatchResult) : Bool :=
  decide (m.matchType = .mstart) || decide (m.matchType = .msingle)

/-- The candidate rows of `filterToLeafRange`: non-`contains` leaf-typed rows
when any exist, else all non-`contains` rows. -/
def leafCandidates (ms : List MatchResult) : List MatchResult :=
  let leafMatches := ms.filter (fun m =>
    decide (m.matchType ≠ .mcontains) && LEAF_TOKEN_TYPES.contains m.nodeType)
  if leafMatches.isEmpty then
    ms.filter (fun m => decide (m.matchType ≠ .mcontains))
  else leafMatches

/-- `filterToLeafRange`. -/
def filterToLeafRange (ms : List MatchResult) : List MatchResult :=
  if ms.isEmpty then []
  else if (leafCandidates ms).isEmpty then []
  else
    match (leafCandidates ms).find? isStartOrSingle,
        (leafCandidates ms).find? (fun m => decide (m.matchType = .mend)) with
    | some s, some e => if s.nodeId ≠ e.nodeId then [s, e] else [s]
    | some s, none => [s]
    | none, _ =>
      match leafCandidates ms with
      | c :: _ => [c]
      | [] => []

theorem leafCandidates_not_contains {ms : List MatchResult} {r : MatchResult}
    (h : r ∈ leafCandidates ms) : r ∈ ms ∧ r.matchType ≠ .mcontains := by
  unfold leafCandidates at h
  by_cases he : (ms.filter (fun m =>
      decide (m.matchType ≠ .mcontains) && LEAF_TOKEN_TYPES.contains m.nodeType)).isEmpty
  · simp only [he, if_true] at h
    rw [List.mem_filter] at h
    exact ⟨h.1, by simpa using h.2⟩
  · simp only [he, if_false] at h
    rw [List.mem_filter] at h
    refine ⟨h.1, ?_⟩
    have h2 := h.2
    simp only [Bool.and_eq_true, decide_eq_true_eq] at h2
    exact h2.1

theorem filterToLeafRange_mem {ms : List MatchResult} {r : MatchResult}
    (h : r ∈ filterToLeafRange ms) : r ∈ leafCandidates ms := by
  unfold filterToLeafRange at h
  by_cases h1 : ms.isEmpty
  · rw [if_pos h1] at h
    simp at h
  · rw [if_neg h1] at h
    by_cases h2 : (leafCandidates ms).isEmpty
    · rw [if_pos h2] at h
      simp at h
    · rw [if_neg h2] at h
      rcases hs : (leafCandidates ms).find? isStartOrSingle with _ | s <;>
        rcases he : (leafCandidates ms).find? (fun m => decide (m.matchType = .mend))
          with _ | e <;> rw [hs, he] at h
      · rcases hc : leafCandidates ms with _ | ⟨c, cs⟩
        · rw [hc] at h2
          simp at h2
        · rw [hc] at h
          have hr : r ∈ [c] := h
          rw [List.mem_singleton.mp hr]
          exact List.mem_cons_self c cs
      · rcases hc : leafCandidates ms with _ | ⟨c, cs⟩
        · rw [hc] at h2
          simp at h2
        · rw [hc] at h
          have hr : r ∈ [c] := h
          rw [List.mem_singleton.mp hr]
          exact List.mem_cons_self c cs
      · have h3 : r ∈ [s] := h
        rw [List.mem_singleton.mp h3]
        exact List.mem_of_find?_eq_some hs
      · have h3 : r ∈ (if s.nodeId ≠ e.nodeId then [s, e] else [s]) := h
        by_cases hne : s.nodeId ≠ e.nodeId
        · rw [if_pos hne] at h3
          rcases List.mem_cons.mp h3 with h4 | h4
          · rw [h4]; exact List.mem_of_find?_eq_some hs
          · rw [List.mem_singleton.mp h4]
            exact List.mem_of_find?_eq_some he
        · rw [if_neg hne] at h3
          rw [List.mem_singleton.mp h3]
          exact List.mem_of_find?_eq_some hs

/-- Claim C6, counterexample: for the nonempty input consisting of one
`contains` row, `filterToLeafRange` returns `[]` — not a single row as the
claim's "a single row otherwise" asserts. -/
theorem leaf_filtering_cex :
    filterToLeafRange [⟨"a", "section", .mcontains, none⟩] = [] ∧
    ([⟨"a", "section", .mcontains, none⟩] : List MatchResult) ≠ [] :=
  ⟨by decide, by decide⟩

/-- Claim C6, amended: `filterToLeafRange` returns at most two rows, none of
matchType `contains`, all drawn from the input with their `offset` fields
intact; when the first `start`-or-`single` candidate and the first `end`
candidate exist and lie on distinct nodes it returns exactly that pair; when
the first `start`-or-`single` candidate exists and any first `end` candidate
shares its node (or none exists) it returns that single row; when no
`start`-or-`single` candidate exists but the candidate list is nonempty it
returns exactly the first candidate row (the code's `[candidates[0]]`
fallback, e.g. for an end-only input); it returns `[]` for empty input AND
for nonempty input whose rows are all `contains`; and the concrete
`[leaf(single, offset 42), contains, contains]` example returns exactly the
leaf row with offset 42. -/
theorem leaf_filtering_amended :
    (∀ ms : List MatchResult, (filterToLeafRange ms).length ≤ 2) ∧
    (∀ (ms : List MatchResult) (r : MatchResult), r ∈ filterToLeafRange ms →
      r ∈ ms ∧ r.matchType ≠ .mcontains) ∧
    (∀ (ms : List MatchResult) (s e : MatchResult),
      (leafCandidates ms).find? isStartOrSingle = some s →
      (leafCandidates ms).find? (fun m => decide (m.matchType = .mend)) = some e →
      s.nodeId ≠ e.nodeId → filterToLeafRange ms = [s, e]) ∧
    (∀ (ms : List MatchResult) (s : MatchResult),
      (leafCandidates ms).find? isStartOrSingle = some s →
      (∀ e, (leafCandidates ms).find? (fun m => decide (m.matchType = .mend)) = some e →
        s.nodeId = e.nodeId) →
      filterToLeafRange ms = [s]) ∧
    (∀ (ms : List MatchResult) (c : MatchResult) (cs : List MatchResult),
      (leafCandidates ms).find? isStartOrSingle = none →
      leafCandidates ms = c :: cs →
      filterToLeafRange ms = [c]) ∧
    filterToLeafRange [] = [] ∧
    (∀ ms : List MatchResult, (∀ r ∈ ms, r.matchType = .mcontains) →
      filterToLeafRange ms = []) ∧
    filterToLeafRange
      [⟨"n1", "text", .msingle, some 42⟩,
       ⟨"p1", "section", .mcontains, none⟩,
       ⟨"p2", "section", .mcontains, none⟩] =
      [⟨"n1", "text", .msingle, some 42⟩] := by
  have hfindback : ∀ (ms : List MatchResult) (p : MatchResult → Bool) (x : MatchResult),
      (leafCandidates ms).find? p = some x →
      ¬(leafCandidates ms).isEmpty = true ∧ ¬ms.isEmpty = true := by
    intro ms p x hx
    have hc : ¬(leafCandidates ms).isEmpty = true := by
      intro hh
      rw [List.isEmpty_iff.mp hh] at hx
      simp at hx
    refine ⟨hc, fun hh => ?_⟩
    have hms : ms = [] := List.isEmpty_iff.mp hh
    subst hms
    have : leafCandidates [] = [] := by simp [leafCandidates]
    rw [this] at hx
    simp at hx
  refine ⟨?_, fun ms r h => leafCandidates_not_contains (filterToLeafRange_mem h),
    ?_, ?_, ?_, rfl, ?_, by decide⟩
  · intro ms
    unfold filterToLeafRange
    by_cases h1 : ms.isEmpty
    · rw [if_pos h1]; simp
    · rw [if_neg h1]
      by_cases h2 : (leafCandidates ms).isEmpty
      · rw [if_pos h2]; simp
      · rw [if_neg h2]
        rcases hfs : (leafCandidates ms).find? isStartOrSingle with _ | s <;>
          rcases hfe : (leafCandidates ms).find? (fun m => decide (m.matchType = .mend))
            with _ | e <;> simp only [hfs, hfe]
        · rcases leafCandidates ms with _ | ⟨c, cs⟩ <;> simp
        · rcases leafCandidates ms with _ | ⟨c, cs⟩ <;> simp
        · simp
        · show (if s.nodeId ≠ e.nodeId then [s, e] else [s]).length ≤ 2
          split_ifs <;> simp
  · intro ms s e hs he hne
    obtain ⟨hc, hms⟩ := hfindback ms _ s hs
    unfold filterToLeafRange
    rw [if_neg hms, if_neg hc]
    simp only [hs, he]
    show (if s.nodeId ≠ e.nodeId then [s, e] else [s]) = [s, e]
    rw [if_pos hne]
  · intro ms s hs hsame
    obtain ⟨hc, hms⟩ := hfindback ms _ s hs
    unfold filterToLeafRange
    rw [if_neg hms, if_neg hc]
    rcases he : (leafCandidates ms).find? (fun m => decide (m.matchType = .mend))
      with _ | e <;> simp only [hs, he]
    · show (if s.nodeId ≠ e.nodeId then [s, e] else [s]) = [s]
      rw [if_neg (fun hh => hh (hsame e he))]
  · intro ms c cs hfs hcand
    have hcm : c ∈ leafCandidates ms := by
      rw [hcand]
      exact List.mem_cons_self c cs
    have hms : ¬ms.isEmpty = true := by
      intro hh
      have h1 := (leafCandidates_not_contains hcm).1
      rw [List.isEmpty_iff.mp hh] at h1
      exact absurd h1 (List.not_mem_nil c)
    have hc : ¬(leafCandidates ms).isEmpty = true := by
      rw [hcand]
      simp
    unfold filterToLeafRange
    rw [if_neg hms, if_neg hc]
    rcases he : (leafCandidates ms).find? (fun m => decide (m.matchType = .mend))
      with _ | e <;> simp only [hfs, he] <;> rw [hcand]
  · intro ms hall
    unfold filterToLeafRange
    by_cases h1 : ms.isEmpty
    · rw [if_pos h1]
    · rw [if_neg h1]
      have hc : (leafCandidates ms).isEmpty = true := by
        rw [List.isEmpty_iff]
        rcases hcc : leafCandidates ms with _ | ⟨c, cs⟩
        · rfl
        · have hmem : c ∈ leafCandidates ms := by
            rw [hcc]; exact List.mem_cons_self c cs
          have hnc := leafCandidates_not_contains hmem
          exact absurd (hall c hnc.1) hnc.2
      rw [if_pos hc]

/-- Claim C6, witness: a start row on node `x` and an end row on node `y`
exercise the two-row case of the amended theorem, and an end-only input
exercises its `[candidates[0]]` fallback case. -/
theorem leaf_filtering_amended_witness :
    ((leafCandidates [⟨"x", "text", .mstart, some 1⟩, ⟨"y", "text", .mend, some 5⟩]).find?
        isStartOrSingle = some ⟨"x", "text", .mstart, some 1⟩ ∧
    (leafCandidates [⟨"x", "text", .mstart, some 1⟩, ⟨"y", "text", .mend, some 5⟩]).find?
        (fun m => decide (m.matchType = .mend)) = some ⟨"y", "text", .mend, some 5⟩ ∧
    (MatchResult.nodeId ⟨"x", "text", .mstart, some 1⟩ ≠
      MatchResult.nodeId ⟨"y", "text", .mend, some 5⟩) ∧
    filterToLeafRange [⟨"x", "text", .mstart, some 1⟩, ⟨"y", "text", .mend, some 5⟩] =
      [⟨"x", "text", .mstart, some 1⟩, ⟨"y", "text", .mend, some 5⟩]) ∧
    ((leafCandidates [⟨"z", "text", .mend, some 3⟩]).find? isStartOrSingle = none ∧
    leafCandidates [⟨"z", "text", .mend, some 3⟩] = [⟨"z", "text", .mend, some 3⟩] ∧
    filterToLeafRange [⟨"z", "text", .mend, some 3⟩] = [⟨"z", "text", .mend, some 3⟩]) :=
  ⟨⟨by decide, by decide, by decide,
    leaf_filtering_amended.2.2.1 _ _ _ (by decide) (by decide) (by decide)⟩,
   ⟨by decide, by decide,
    leaf_filtering_amended.2.2.2.2.1 [⟨"z", "text", .mend, some 3⟩]
      ⟨"z", "text", .mend, some 3⟩ [] (by decide) (by decide)⟩⟩

/-! ### Fuzzy matching (`findFuzzyMatch`, claim C8)

The sliding-window loops carry an explicit iteration bound (`fuel`) so they
are kernel-evaluable; the bounds passed below always exceed the number of JS
loop iterations.  The literal `0.95` early-exit score and the `0.7` default
threshold are the exact rationals `19/20` and `7/10`.  `Math.floor(ws * 0.3)`
is modelled as `3 * ws / 10` (exact rather than double-rounded arithmetic —
the tolerance value does not affect the claims proved here). -/

def isAlphaNumLower (c : Char) : Bool :=
  ('a' ≤ c ∧ c ≤ 'z') ∨ ('0' ≤ c ∧ c ≤ '9')

/-- `/\s+/g → " "` on a character list (`prev` marks a pending run). -/
def collapseWs : List Char → Bool → List Char
  | [], _ => []
  | c :: cs, prev =>
    if isSpaceJS c then
      if prev then collapseWs cs true else ' ' :: collapseWs cs true
    else c :: collapseWs cs false

/-- `normalizeForComparison`: lowercase, strip non-alphanumeric-non-space,
collapse whitespace, trim. -/
def normalizeForComparison (s : String) : String :=
  let low := s.data.map Char.toLower
  let kept := low.filter (fun c => isAlphaNumLower c || isSpaceJS c)
  let collapsed := collapseWs kept false
  ⟨((collapsed.dropWhile isSpaceJS).reverse.dropWhile isSpaceJS).reverse⟩

/-- The index-collecting loop of `buildPositionMap` (`inWs` is
`inWhitespace`, `started` is `posMap.length > 0`). -/
def buildPositionMapAux : List Char → Nat → Bool → Bool → List Nat
  | [], _, _, _ => []
  | c :: cs, i, inWs, started =>
    let cl := c.toLower
    if isAlphaNumLower cl then i :: buildPositionMapAux cs (i + 1) false true
    else if isSpaceJS cl then
      if ¬inWs ∧ started then i :: buildPositionMapAux cs (i + 1) true started
      else buildPositionMapAux cs (i + 1) inWs started
    else buildPositionMapAux cs (i + 1) inWs started

/-- `buildPositionMap`, including the trailing-whitespace pop loop. -/
def buildPositionMap (original : List Char) : List Nat :=
  let pm := buildPositionMapAux original 0 false false
  ((pm.reverse).dropWhile (fun idx => isSpaceJS (original.getD idx 'a'))).reverse

/-- The `0.95` early-exit score. -/
def score95 : ℚ := mkRat 19 20

/-- The inner sliding-window loop over start positions `i` (step
`max 1 (size / 10)`), tracking the best `(score, start, end)`. -/
def fuzzyInner (normExcerpt normContent : List Char) (size : Nat) :
    Nat → Nat → ℚ × Int × Int → ℚ × Int × Int
  | 0, _, best => best
  | fuel + 1, i, best =>
    if i + size ≤ normContent.length then
      let window := (normContent.drop i).take size
      let score := similarity ⟨normExcerpt⟩ ⟨window⟩
      let best2 :=
        if score > best.1 then (score, (i : Int), ((i + size : Nat) : Int)) else best
      if score > score95 then best2
      else fuzzyInner normExcerpt normContent size fuel
        (i + max 1 (size / 10)) best2
    else best

/-- The outer loop over window sizes `ws - tol … ws + tol`, with the
`size > content` skip and the `> 0.95` early exit. -/
def fuzzyOuter (normExcerpt normContent : List Char) (ws tol : Nat) :
    Nat → Nat → ℚ × Int × Int → ℚ × Int × Int
  | 0, _, best => best
  | fuel + 1, size, best =>
    if size > ws + tol then best
    else
      let best2 :=
        if size > normContent.length then best
        else fuzzyInner normExcerpt normContent size (normContent.length + 1) 0 best
      if best2.1 > score95 then best2
      else fuzzyOuter normExcerpt normContent ws tol fuel (size + 1) best2

/-- The best sliding-window result of `findFuzzyMatch`'s search phase
(`bestScore = 0`, `bestStart = bestEnd = -1` initially). -/
def fuzzyBest (content excerpt : String) : ℚ × Int × Int :=
  let normExcerpt := (normalizeForComparison excerpt).data
  let normContent := (normalizeForComparison content).data
  let ws := normExcerpt.length
  let tol := 3 * ws / 10
  fuzzyOuter normExcerpt normContent ws tol (2 * tol + 2) (ws - tol) (0, -1, -1)

/-- `findFuzzyMatch(content, excerpt, threshold)`: `none` for short excerpts
or when the best window misses the threshold, else the mapped-back range
with the first-word start refinement. -/
def findFuzzyMatch (content excerpt : String) (threshold : ℚ) :
    Option (Nat × Nat × ℚ) :=
  if (normalizeForComparison excerpt).data.length < 10 then none
  else
    let posMap := buildPositionMap content.data
    let b := fuzzyBest content excerpt
    if b.1 ≥ threshold ∧ b.2.1 ≥ 0 ∧ b.2.2 ≤ (posMap.length : Int) then
      let bs := b.2.1.toNat
      let be := b.2.2.toNat
      let origStart := posMap.getD bs 0
      let origEnd := posMap.getD (min (be - 1) (posMap.length - 1)) content.data.length
      let firstWord : List Char := (trimJS excerpt).data.takeWhile (fun c => !isSpaceJS c)
      let origStart2 :=
        if firstWord.length ≥ 3 then
          match strIndexOf content ⟨firstWord⟩ origStart with
          | some rs => if rs < origEnd ∧ rs - origStart < 20 then rs else origStart
          | none => origStart
        else origStart
      some (origStart2, origEnd, b.1)
    else none

/-- Claim C8: `findFuzzyMatch` returns `null` (it is a total function of its
inputs — never an exception) whenever the normalized excerpt is shorter than
10 characters, and likewise whenever the best sliding-window similarity
score falls below the threshold. -/
theorem fuzzy_negative_results (content excerpt : String) (threshold : ℚ) :
    ((normalizeForComparison excerpt).length < 10 →
      findFuzzyMatch content excerpt threshold = none) ∧
    ((fuzzyBest content excerpt).1 < threshold →
      findFuzzyMatch content excerpt threshold = none) := by
  constructor
  · intro h
    unfold findFuzzyMatch
    rw [if_pos (show (normalizeForComparison excerpt).data.length < 10 from h)]
  · intro h
    unfold findFuzzyMatch
    by_cases hl : (normalizeForComparison excerpt).data.length < 10
    · rw [if_pos hl]
    · rw [if_neg hl, if_neg (fun hc => absurd hc.1 (not_le.mpr h))]

/-- Claim C8, witness: both negative branches at concrete inputs — a
too-short excerpt, and an excerpt whose best window score 0 misses the 0.7
threshold (the content is shorter than every candidate window). -/
theorem fuzzy_negative_results_witness :
    ((normalizeForComparison "hi").length < 10 ∧
      findFuzzyMatch "whatever content here" "hi" (mkRat 7 10) = none) ∧
    ((fuzzyBest "z" "abcdefghij").1 < mkRat 7 10 ∧
      findFuzzyMatch "z" "abcdefghij" (mkRat 7 10) = none) :=
  ⟨⟨by decide, (fuzzy_negative_results "whatever content here" "hi" (mkRat 7 10)).1
      (by decide)⟩,
    ⟨by decide, (fuzzy_negative_results "z" "abcdefghij" (mkRat 7 10)).2 (by decide)⟩⟩

/-! ### Span map and tree lemmas towards the containment invariant (C1) -/

theorem findq_append {α : Type} (p : α → Bool) (l1 l2 : List α) :
    (l1 ++ l2).find? p = ((l1.find? p).orElse (fun _ => l2.find? p)) := by
  induction l1 with
  | nil => rfl
  | cons a l ih =>
    by_cases h : p a <;> simp [List.find?_cons, h, ih]

theorem mhas_false_iff (m : Spans) (k : String) :
    mhas m k = false ↔ mget m k = none := by
  unfold mhas mget
  cases h : m.find? (fun p => p.1 = k) <;> simp [h]

theorem mget_mset_fresh_self (m : Spans) (k : String) (v : SpanInfo)
    (h : mget m k = none) : mget (mset m k v) k = some v := by
  have hb : mhas m k = false := (mhas_false_iff m k).mpr h
  unfold mset
  rw [if_neg (by simp [hb])]
  unfold mget
  rw [findq_append]
  have hf : m.find? (fun p => p.1 = k) = none := by
    unfold mget at h
    cases hh : m.find? (fun p => p.1 = k)
    · rfl
    · rw [hh] at h; simp at h
  rw [hf]
  simp [List.find?_cons]

theorem mget_mset_fresh_other (m : Spans) (k : String) (v : SpanInfo)
    (k2 : String) (h : mget m k = none) (hne : k2 ≠ k) :
    mget (mset m k v) k2 = mget m k2 := by
  have hb : mhas m k = false := (mhas_false_iff m k).mpr h
  unfold mset
  rw [if_neg (by simp [hb])]
  unfold mget
  rw [findq_append]
  cases hh : m.find? (fun p => p.1 = k2) with
  | some x => simp [hh]
  | none =>
    simp only [hh, Option.orElse]
    simp only [List.find?_cons]
    rw [show decide (k = k2) = false from decide_eq_false fun hk => hne hk.symm]
    rfl

theorem substr_data_length_le (s : String) (a b : Nat) :
    (substr s a b).data.length ≤ b - a := by
  simp only [substr]
  calc ((s.data.drop a).take (b - a)).length ≤ b - a := by
        rw [List.length_take]; omega

/-! Tree membership lemmas. -/

theorem self_mem_subtree (n : Node) : n ∈ subtreeNodes n := by
  rw [subtreeNodes_def]
  exact List.mem_cons_self n _

theorem subtree_sub_of_mem : ∀ (ns : List Node), ∀ r ∈ ns,
    ∀ x ∈ subtreeNodes r, x ∈ forestNodes ns := by
  intro ns
  induction ns with
  | nil => intro r hr; simp at hr
  | cons n rest ih =>
    intro r hr x hx
    rw [forestNodes, List.mem_append]
    rcases List.mem_cons.mp hr with h | h
    · left; rw [← h]; exact hx
    · right; exact ih r h x hx

theorem mem_forest_iff (ns : List Node) (b : Node) :
    b ∈ forestNodes ns ↔ ∃ r ∈ ns, b ∈ subtreeNodes r := by
  induction ns with
  | nil => rw [forestNodes]; simp
  | cons n rest ih =>
    rw [forestNodes, List.mem_append, ih]
    constructor
    · rintro (h | ⟨r, hr, hb⟩)
      · exact ⟨n, List.mem_cons_self n rest, h⟩
      · exact ⟨r, List.mem_cons_of_mem n hr, hb⟩
    · rintro ⟨r, hr, hb⟩
      rcases List.mem_cons.mp hr with h | h
      · left; rw [← h]; exact hb
      · right; exact ⟨r, h, hb⟩

theorem mem_children_subtree {a c : Node} (h : c ∈ a.children) :
    c ∈ subtreeNodes a := by
  rw [subtreeNodes_def]
  exact List.mem_cons_of_mem a (subtree_sub_of_mem a.children c h c (self_mem_subtree c))

theorem forest_trans : ∀ (m : Nat) (ns : List Node), sizeOf ns ≤ m →
    ∀ b ∈ forestNodes ns, ∀ x ∈ subtreeNodes b, x ∈ forestNodes ns := by
  intro m
  induction m with
  | zero =>
    intro ns h
    cases ns with
    | nil => intro b hb; rw [forestNodes] at hb; simp at hb
    | cons n rest => simp at h
  | succ m ih =>
    intro ns hns b hb x hx
    cases ns with
    | nil => rw [forestNodes] at hb; simp at hb
    | cons n rest =>
      rw [forestNodes, List.mem_append] at hb ⊢
      rcases hb with hb | hb
      · left
        rw [subtreeNodes_def] at hb
        rcases List.mem_cons.mp hb with hbn | hbn
        · exact hbn ▸ hx
        · rw [subtreeNodes_def, List.mem_cons]
          right
          have hsz : sizeOf n.children ≤ m := by
            have h1 := Node.sizeOf_children_lt n
            simp only [List.cons.sizeOf_spec] at hns
            omega
          exact ih n.children hsz b hbn x hx
      · right
        have hsz : sizeOf rest ≤ m := by
          simp only [List.cons.sizeOf_spec] at hns
          omega
        exact ih rest hsz b hb x hx

theorem subtree_trans {a b x : Node} (hb : b ∈ subtreeNodes a)
    (hx : x ∈ subtreeNodes b) : x ∈ subtreeNodes a := by
  rw [subtreeNodes_def] at hb
  rcases List.mem_cons.mp hb with h | h
  · exact h ▸ hx
  · rw [subtreeNodes_def, List.mem_cons]
    right
    exact forest_trans (sizeOf a.children) a.children le_rfl b h x hx

theorem children_in_forest {ns : List Node} {a c : Node}
    (ha : a ∈ forestNodes ns) (hc : c ∈ a.children) : c ∈ forestNodes ns := by
  rcases (mem_forest_iff ns a).mp ha with ⟨r, hr, har⟩
  exact subtree_sub_of_mem ns r hr c (subtree_trans har (mem_children_subtree hc))

theorem edge_in_properDesc {n a c : Node} (ha : a ∈ subtreeNodes n)
    (hc : c ∈ a.children) : c ∈ properDesc n := by
  rw [subtreeNodes_def] at ha
  rcases List.mem_cons.mp ha with h | h
  · rw [← h]
    unfold properDesc
    exact subtree_sub_of_mem a.children c hc c (self_mem_subtree c)
  · unfold properDesc
    exact forest_trans (sizeOf n.children) n.children le_rfl a h c
      (mem_children_subtree hc)

/-! Id-list lemmas. -/

theorem forestIds_cons (n : Node) (rest : List Node) :
    forestIds (n :: rest) = subtreeIds n ++ forestIds rest := by
  unfold forestIds subtreeIds
  rw [forestNodes, List.map_append]

theorem subtreeIds_def (n : Node) :
    subtreeIds n = n.nid :: forestIds n.children := by
  unfold subtreeIds forestIds
  rw [subtreeNodes_def]
  rfl

theorem nid_mem_subtreeIds (n : Node) : n.nid ∈ subtreeIds n := by
  rw [subtreeIds_def]
  exact List.mem_cons_self _ _

theorem mem_subtreeIds_of_mem {n x : Node} (h : x ∈ subtreeNodes n) :
    x.nid ∈ subtreeIds n := List.mem_map_of_mem Node.nid h

theorem mem_forestIds_of_mem {ns : List Node} {x : Node}
    (h : x ∈ forestNodes ns) : x.nid ∈ forestIds ns :=
  List.mem_map_of_mem Node.nid h

theorem forestIds_nodup_cons {n : Node} {rest : List Node}
    (h : (forestIds (n :: rest)).Nodup) :
    (subtreeIds n).Nodup ∧ (forestIds rest).Nodup ∧
      ∀ k ∈ subtreeIds n, k ∉ forestIds rest := by
  rw [forestIds_cons] at h
  rw [List.nodup_append] at h
  exact ⟨h.1, h.2.1, h.2.2⟩

theorem subtreeIds_nodup_parts {n : Node} (h : (subtreeIds n).Nodup) :
    n.nid ∉ forestIds n.children ∧ (forestIds n.children).Nodup := by
  rw [subtreeIds_def] at h
  rw [List.nodup_cons] at h
  exact h

/-! Branch equations for the `findMissingChildSpans` recursion. -/

theorem fmSearch_snd (getC getCopy : Node → String) (pc : String) (c : Node)
    (ss : Nat) :
    (fmSearch getC getCopy pc c ss).2 =
      strIndexOf pc (fmSearch getC getCopy pc c ss).1 ss := by
  simp only [fmSearch]
  split
  · rfl
  · rfl

theorem fmSearch_bounds {getC getCopy : Node → String} {pc : String} {c : Node}
    {ss : Nat} {out : String} {j : Nat}
    (h : fmSearch getC getCopy pc c ss = (out, some j)) (hlen : 0 < out.length) :
    ss ≤ j ∧ j + out.length ≤ pc.length := by
  have h2 := fmSearch_snd getC getCopy pc c ss
  rw [h] at h2
  have h3 : strIndexOf pc out ss = some j := h2.symm
  have hd : out.data.length ≠ 0 := by
    have : out.length = out.data.length := rfl
    omega
  have hb := strIndexOf_some_bounds h3 hd
  have hl1 : out.length = out.data.length := rfl
  have hl2 : pc.length = pc.data.length := rfl
  omega

theorem fmNode_empty {getC getCopy : Node → String} {content : String}
    {n : Node} {spans : Spans} (h : n.children.isEmpty = true) :
    fmNode getC getCopy content n spans = spans := by
  rw [fmNode]
  simp [h]

theorem fmNode_nospan {getC getCopy : Node → String} {content : String}
    {n : Node} {spans : Spans} (h : mget spans n.nid = none) :
    fmNode getC getCopy content n spans = spans := by
  rw [fmNode]
  simp [h]

theorem fmNode_span {getC getCopy : Node → String} {content : String}
    {n : Node} {spans : Spans} {ps : SpanInfo}
    (hne : n.children.isEmpty = false) (h : mget spans n.nid = some ps) :
    fmNode getC getCopy content n spans =
      (fmChildren getC getCopy content ps (substr content ps.start ps.stop)
        n.children spans 0).1 := by
  rw [fmNode]
  simp [hne, h]

theorem fmChildren_nil (getC getCopy : Node → String) (content : String)
    (ps : SpanInfo) (pc : String) (spans : Spans) (ss : Nat) :
    fmChildren getC getCopy content ps pc [] spans ss = (spans, ss) := by
  rw [fmChildren]

theorem fmChildren_cons_has {getC getCopy : Node → String} {content : String}
    {ps : SpanInfo} {pc : String} {c : Node} {rest : List Node} {spans : Spans}
    {ss : Nat} (h : mhas spans c.nid = true) :
    fmChildren getC getCopy content ps pc (c :: rest) spans ss =
      fmChildren getC getCopy content ps pc rest
        (fmNode getC getCopy content c spans) ss := by
  rw [fmChildren]
  simp [h]

theorem fmChildren_cons_none {getC getCopy : Node → String} {content : String}
    {ps : SpanInfo} {pc : String} {c : Node} {rest : List Node} {spans : Spans}
    {ss : Nat} (h1 : mhas spans c.nid = false)
    (h2 : (fmSearch getC getCopy pc c ss).2 = none) :
    fmChildren getC getCopy content ps pc (c :: rest) spans ss =
      fmChildren getC getCopy content ps pc rest spans ss := by
  rw [fmChildren]
  rw [if_neg (by simp [h1])]
  have hp : fmSearch getC getCopy pc c ss =
      ((fmSearch getC getCopy pc c ss).1, none) := by
    rw [← h2]
  rw [hp]

theorem fmChildren_cons_zero {getC getCopy : Node → String} {content : String}
    {ps : SpanInfo} {pc : String} {c : Node} {rest : List Node} {spans : Spans}
    {ss : Nat} {out : String} {j : Nat} (h1 : mhas spans c.nid = false)
    (h2 : fmSearch getC getCopy pc c ss = (out, some j)) (h3 : out.length = 0) :
    fmChildren getC getCopy content ps pc (c :: rest) spans ss =
      fmChildren getC getCopy content ps pc rest spans ss := by
  rw [fmChildren]
  rw [if_neg (by simp [h1])]
  rw [h2]
  simp [h3]

theorem fmChildren_cons_found {getC getCopy : Node → String} {content : String}
    {ps : SpanInfo} {pc : String} {c : Node} {rest : List Node} {spans : Spans}
    {ss : Nat} {out : String} {j : Nat} (h1 : mhas spans c.nid = false)
    (h2 : fmSearch getC getCopy pc c ss = (out, some j)) (h3 : 0 < out.length) :
    fmChildren getC getCopy content ps pc (c :: rest) spans ss =
      fmChildren getC getCopy content ps pc rest
        (if c.children.isEmpty
          then mset spans c.nid ⟨ps.start + j, ps.start + j + out.length, c.ntype⟩
          else fmNode getC getCopy content c
            (mset spans c.nid ⟨ps.start + j, ps.start + j + out.length, c.ntype⟩))
        (j + out.length) := by
  rw [fmChildren]
  rw [if_neg (by simp [h1])]
  rw [h2]
  simp only [if_pos h3]

/-! ### The primary tracked render pass -/

/-- Existing span bindings survive (with the same value). -/
def spansPreserved (s s2 : Spans) : Prop :=
  ∀ k v, mget s k = some v → mget s2 k = some v

/-- Sibling spans appear left to right: earlier siblings start no later. -/
def childOrder (s : Spans) (cs : List Node) : Prop :=
  List.Pairwise (fun c1 c2 => ∀ v1 v2, mget s c1.nid = some v1 →
    mget s c2.nid = some v2 → v1.start ≤ v2.start) cs

theorem getContentAux_some_cons (render : Node → String) (sep : String)
    (n : Node) (ns : List Node) (c : String) (t : Tracker) :
    getContentAux render sep (n :: ns) c (some t) =
      getContentAux render sep ns
        ((if n.inline = false ∧ c ≠ "" then c ++ sep else c) ++ render n)
        (some ⟨mset t.spans n.nid
            ⟨(if n.inline = false ∧ c ≠ "" then t.pos + sep.length else t.pos),
             (if n.inline = false ∧ c ≠ "" then t.pos + sep.length else t.pos)
               + (render n).length,
             n.ntype⟩,
          (if n.inline = false ∧ c ≠ "" then t.pos + sep.length else t.pos)
            + (render n).length⟩) := by
  by_cases h : n.inline = false ∧ c ≠ "" <;> simp [getContentAux, h]

theorem primary_pass (render : Node → String) (sep : String) :
    ∀ (ns : List Node) (c : String) (t : Tracker),
      (ns.map Node.nid).Nodup →
      (∀ n ∈ ns, mget t.spans n.nid = none) →
      ∃ t2, (getContentAux render sep ns c (some t)).2 = some t2 ∧
        spansPreserved t.spans t2.spans ∧
        (∀ k, mget t2.spans k ≠ none →
          mget t.spans k ≠ none ∨ k ∈ ns.map Node.nid) ∧
        t.pos ≤ t2.pos ∧
        (∀ n ∈ ns, mget t2.spans n.nid ≠ none) ∧
        (∀ n ∈ ns, ∀ v, mget t2.spans n.nid = some v → t.pos ≤ v.start) ∧
        childOrder t2.spans ns := by
  intro ns
  induction ns with
  | nil =>
    intro c t hnd hfr
    exact ⟨t, rfl, fun k v h => h, fun k h => Or.inl h, le_rfl,
      by simp, by simp, List.Pairwise.nil⟩
  | cons n rest ih =>
    intro c t hnd hfr
    rw [getContentAux_some_cons]
    generalize hst : (if n.inline = false ∧ c ≠ "" then t.pos + sep.length
      else t.pos) = start
    have hts : t.pos ≤ start := by
      rw [← hst]; split <;> omega
    have hfrn : mget t.spans n.nid = none := hfr n (List.mem_cons_self n rest)
    rw [List.map_cons, List.nodup_cons] at hnd
    obtain ⟨hnn, hndr⟩ := hnd
    have hget1 : mget (mset t.spans n.nid
        ⟨start, start + (render n).length, n.ntype⟩) n.nid =
        some ⟨start, start + (render n).length, n.ntype⟩ :=
      mget_mset_fresh_self _ _ _ hfrn
    have hother : ∀ k, k ≠ n.nid → mget (mset t.spans n.nid
        ⟨start, start + (render n).length, n.ntype⟩) k = mget t.spans k :=
      fun k hk => mget_mset_fresh_other _ _ _ _ hfrn hk
    have hfr1 : ∀ m ∈ rest, mget (mset t.spans n.nid
        ⟨start, start + (render n).length, n.ntype⟩) m.nid = none := by
      intro m hm
      have hne : m.nid ≠ n.nid := by
        intro he
        exact hnn (he ▸ List.mem_map_of_mem Node.nid hm)
      rw [hother m.nid hne]
      exact hfr m (List.mem_cons_of_mem n hm)
    obtain ⟨t2, heq, hpres, hdom, hpos, hexists, hstart, horder⟩ :=
      ih ((if n.inline = false ∧ c ≠ "" then c ++ sep else c) ++ render n)
        ⟨mset t.spans n.nid ⟨start, start + (render n).length, n.ntype⟩,
          start + (render n).length⟩ hndr hfr1
    refine ⟨t2, heq, ?_, ?_, ?_, ?_, ?_, ?_⟩
    · intro k v hk
      have hne : k ≠ n.nid := by
        intro he
        rw [he, hfrn] at hk
        exact Option.noConfusion hk
      exact hpres k v ((hother k hne).symm ▸ hk)
    · intro k hk
      rcases hdom k hk with h | h
      · by_cases hne : k = n.nid
        · right
          rw [List.map_cons, hne]
          exact List.mem_cons_self _ _
        · left
          rw [hother k hne] at h
          exact h
      · right
        rw [List.map_cons]
        exact List.mem_cons_of_mem _ h
    · calc t.pos ≤ start := hts
        _ ≤ start + (render n).length := Nat.le_add_right _ _
        _ ≤ t2.pos := hpos
    · intro m hm
      rcases List.mem_cons.mp hm with h | h
      · rw [h]
        have := hpres n.nid _ hget1
        rw [this]
        exact Option.noConfusion
      · exact hexists m h
    · intro m hm v hv
      rcases List.mem_cons.mp hm with h | h
      · have h2 := hpres n.nid _ hget1
        rw [h] at hv
        rw [h2] at hv
        have : v = ⟨start, start + (render n).length, n.ntype⟩ :=
          (Option.some.inj hv).symm
        rw [this]
        exact hts
      · calc t.pos ≤ start + (render n).length := by omega
          _ ≤ v.start := hstart m h v hv
    · unfold childOrder
      rw [List.pairwise_cons]
      constructor
      · intro m hm v1 v2 hv1 hv2
        have h2 := hpres n.nid _ hget1
        rw [h2] at hv1
        have hv1e : v1 = ⟨start, start + (render n).length, n.ntype⟩ :=
          (Option.some.inj hv1).symm
        rw [hv1e]
        have : start + (render n).length ≤ v2.start := hstart m hm v2 hv2
        simpa using Nat.le_trans (Nat.le_add_right start (render n).length) this
      · exact horder

/-! ### The reconciliation pass: invariants of `findMissingChildSpans` -/

/-- New keys come only from the stated id list. -/
def domGrowth (s s2 : Spans) (ks : List String) : Prop :=
  ∀ k, mget s2 k ≠ none → mget s k ≠ none ∨ k ∈ ks

/-- Every parent-child edge of the forest whose child has a recorded span has
a recorded parent span containing it. -/
def edgesContained (s2 : Spans) (ns : List Node) : Prop :=
  ∀ a ∈ forestNodes ns, ∀ c ∈ a.children, ∀ vc, mget s2 c.nid = some vc →
    ∃ va, mget s2 a.nid = some va ∧ va.start ≤ vc.start ∧ vc.stop ≤ va.stop

/-- Every node's children list is span-ordered left to right. -/
def allChildOrder (s2 : Spans) (ns : List Node) : Prop :=
  ∀ a ∈ forestNodes ns, childOrder s2 a.children

theorem binding_stable {s s2 : Spans} {ks : List String} {k : String}
    {v : SpanInfo} (hpres : spansPreserved s s2) (hdom : domGrowth s s2 ks)
    (hk : k ∉ ks) (hv : mget s2 k = some v) : mget s k = some v := by
  rcases hdom k (by rw [hv]; exact Option.noConfusion) with h | h
  · cases hh : mget s k with
    | none => exact absurd hh h
    | some w =>
      have h2 := hpres k w hh
      rw [hv] at h2
      exact congrArg some (Option.some.inj h2).symm
  · exact absurd h hk

theorem pairwise_of_mem {α : Type} {R : α → α → Prop} (l : List α)
    (h : ∀ a ∈ l, ∀ b ∈ l, R a b) : l.Pairwise R := by
  induction l with
  | nil => exact List.Pairwise.nil
  | cons a l ih =>
    exact List.Pairwise.cons
      (fun b hb => h a (List.mem_cons_self a l) b (List.mem_cons_of_mem a hb))
      (ih (fun x hx y hy =>
        h x (List.mem_cons_of_mem a hx) y (List.mem_cons_of_mem a hy)))

theorem forestNodes_singleton (n : Node) : forestNodes [n] = subtreeNodes n := by
  rw [forestNodes, forestNodes]
  simp

/-- What `fmNode` guarantees, given fresh distinct descendant ids. -/
def NodeConcl (getC getCopy : Node → String) (content : String) (n : Node)
    (spans : Spans) : Prop :=
  spansPreserved spans (fmNode getC getCopy content n spans) ∧
  domGrowth spans (fmNode getC getCopy content n spans)
    (forestIds n.children) ∧
  edgesContained (fmNode getC getCopy content n spans) [n] ∧
  allChildOrder (fmNode getC getCopy content n spans) [n]

/-- What the `fmChildren` loop guarantees: preservation, bounded new keys, an
advancing cursor, found spans confined to the parent window beyond the cursor,
left-to-right order of the sibling spans, and the two recursive conclusions
for the processed subtrees. -/
def ChildrenConcl (getC getCopy : Node → String) (content : String)
    (ps : SpanInfo) (pc : String) (cs : List Node) (spans : Spans)
    (ss : Nat) : Prop :=
  spansPreserved spans (fmChildren getC getCopy content ps pc cs spans ss).1 ∧
  domGrowth spans (fmChildren getC getCopy content ps pc cs spans ss).1
    (forestIds cs) ∧
  ss ≤ (fmChildren getC getCopy content ps pc cs spans ss).2 ∧
  (∀ c ∈ cs, ∀ vc,
    mget (fmChildren getC getCopy content ps pc cs spans ss).1 c.nid = some vc →
    ps.start + ss ≤ vc.start ∧ vc.stop ≤ ps.stop) ∧
  childOrder (fmChildren getC getCopy content ps pc cs spans ss).1 cs ∧
  edgesContained (fmChildren getC getCopy content ps pc cs spans ss).1 cs ∧
  allChildOrder (fmChildren getC getCopy content ps pc cs spans ss).1 cs

theorem properDesc_nid_in_subtreeIds {c x : Node} (h : x ∈ properDesc c) :
    x.nid ∈ subtreeIds c := by
  rw [subtreeIds_def]
  unfold properDesc at h
  exact List.mem_cons_of_mem _ (mem_forestIds_of_mem h)

theorem mget_result_none {s s2 : Spans} {ks : List String} {k : String}
    (hdom : domGrowth s s2 ks) (h1 : mget s k = none) (h2 : k ∉ ks) :
    mget s2 k = none := by
  cases hv : mget s2 k with
  | none => rfl
  | some w =>
    exfalso
    rcases hdom k (by rw [hv]; exact Option.noConfusion) with h | h
    · exact h h1
    · exact h2 h

theorem pairwise_imp_mem {α : Type} {R S : α → α → Prop} :
    ∀ {l : List α}, (∀ a ∈ l, ∀ b ∈ l, R a b → S a b) →
      l.Pairwise R → l.Pairwise S := by
  intro l
  induction l with
  | nil => intro _ _; exact List.Pairwise.nil
  | cons a l ih =>
    intro h hp
    rw [List.pairwise_cons] at hp
    exact List.Pairwise.cons
      (fun b hb => h a (List.mem_cons_self a l) b (List.mem_cons_of_mem a hb)
        (hp.1 b hb))
      (ih (fun x hx y hy => h x (List.mem_cons_of_mem a hx) y
        (List.mem_cons_of_mem a hy)) hp.2)

/-- When the loop body skips a child (already tracked is impossible here; not
found, or found with empty output), the conclusions for `c :: rest` follow
from those for `rest`: no key of `c`'s subtree can acquire a binding. -/
theorem childrenConcl_skip {getC getCopy : Node → String} {content : String}
    {ps : SpanInfo} {pc : String} {c : Node} {rest : List Node} {spans : Spans}
    {ss : Nat}
    (heq : fmChildren getC getCopy content ps pc (c :: rest) spans ss =
      fmChildren getC getCopy content ps pc rest spans ss)
    (hfreshc : ∀ k ∈ subtreeIds c, mget spans k = none)
    (hdisj : ∀ k ∈ subtreeIds c, k ∉ forestIds rest)
    (hrest : ChildrenConcl getC getCopy content ps pc rest spans ss) :
    ChildrenConcl getC getCopy content ps pc (c :: rest) spans ss := by
  obtain ⟨tpres, tdom, tss, troots, tord, tedges, tall⟩ := hrest
  unfold ChildrenConcl
  rw [heq]
  have hnoc : ∀ k ∈ subtreeIds c,
      mget (fmChildren getC getCopy content ps pc rest spans ss).1 k = none :=
    fun k hk => mget_result_none tdom (hfreshc k hk) (hdisj k hk)
  refine ⟨tpres, ?_, tss, ?_, ?_, ?_, ?_⟩
  · intro k h
    rcases tdom k h with h2 | h2
    · exact Or.inl h2
    · right
      rw [forestIds_cons]
      exact List.mem_append_right _ h2
  · intro x hx vc hvc
    rcases List.mem_cons.mp hx with h | h
    · rw [h, hnoc c.nid (nid_mem_subtreeIds c)] at hvc
      exact Option.noConfusion hvc
    · exact troots x h vc hvc
  · unfold childOrder
    rw [List.pairwise_cons]
    constructor
    · intro m _ v1 v2 hv1 _
      rw [hnoc c.nid (nid_mem_subtreeIds c)] at hv1
      exact absurd hv1 Option.noConfusion
    · exact tord
  · intro a ha c2 hc2 vc hvc
    rw [forestNodes] at ha
    rcases List.mem_append.mp ha with hal | har
    · exfalso
      have h2 : c2.nid ∈ subtreeIds c :=
        properDesc_nid_in_subtreeIds (edge_in_properDesc hal hc2)
      rw [hnoc c2.nid h2] at hvc
      exact Option.noConfusion hvc
    · exact tedges a har c2 hc2 vc hvc
  · intro a ha
    rw [forestNodes] at ha
    rcases List.mem_append.mp ha with hal | har
    · refine pairwise_of_mem a.children ?_
      intro c1 h1 c2 h2 v1 v2 hv1 hv2
      exfalso
      have h3 : c1.nid ∈ subtreeIds c :=
        properDesc_nid_in_subtreeIds (edge_in_properDesc hal h1)
      rw [hnoc c1.nid h3] at hv1
      exact Option.noConfusion hv1
    · exact tall a har

/-- When the loop body records a span for `c` (at `j`, with output `out`) and
moves on with the updated map `spans2`, the conclusions for `c :: rest` follow
from the node-level conclusions about `spans2` and the loop conclusions for
`rest`. -/
theorem childrenConcl_found {getC getCopy : Node → String} {content : String}
    {ps : SpanInfo} {pc : String} {c : Node} {rest : List Node}
    {spans spans2 : Spans} {ss j : Nat} {out : String}
    (heq : fmChildren getC getCopy content ps pc (c :: rest) spans ss =
      fmChildren getC getCopy content ps pc rest spans2 (j + out.length))
    (hpc : pc.length ≤ ps.stop - ps.start)
    (hlen : 0 < out.length) (hb1 : ss ≤ j) (hb2 : j + out.length ≤ pc.length)
    (pres02 : spansPreserved spans spans2)
    (dom02 : domGrowth spans spans2 (subtreeIds c))
    (hsp2 : mget spans2 c.nid =
      some ⟨ps.start + j, ps.start + j + out.length, c.ntype⟩)
    (edges2 : edgesContained spans2 [c])
    (all2 : allChildOrder spans2 [c])
    (hdisj : ∀ k ∈ subtreeIds c, k ∉ forestIds rest)
    (hrest : ChildrenConcl getC getCopy content ps pc rest spans2
      (j + out.length)) :
    ChildrenConcl getC getCopy content ps pc (c :: rest) spans ss := by
  obtain ⟨tpres, tdom, tss, troots, tord, tedges, tall⟩ := hrest
  unfold ChildrenConcl
  rw [heq]
  have hstab : ∀ k ∈ subtreeIds c, ∀ v,
      mget (fmChildren getC getCopy content ps pc rest spans2
        (j + out.length)).1 k = some v → mget spans2 k = some v :=
    fun k hk v hv => binding_stable tpres tdom (hdisj k hk) hv
  refine ⟨fun k v h => tpres k v (pres02 k v h), ?_, ?_, ?_, ?_, ?_, ?_⟩
  · intro k h
    rcases tdom k h with h2 | h2
    · rcases dom02 k h2 with h3 | h3
      · exact Or.inl h3
      · right
        rw [forestIds_cons]
        exact List.mem_append_left _ h3
    · right
      rw [forestIds_cons]
      exact List.mem_append_right _ h2
  · calc ss ≤ j + out.length := by omega
      _ ≤ _ := tss
  · intro x hx vc hvc
    rcases List.mem_cons.mp hx with h | h
    · rw [h] at hvc
      have hvc2 := hstab c.nid (nid_mem_subtreeIds c) vc hvc
      rw [hsp2] at hvc2
      have he : vc = ⟨ps.start + j, ps.start + j + out.length, c.ntype⟩ :=
        (Option.some.inj hvc2).symm
      have hs1 : vc.start = ps.start + j := by rw [he]
      have hs2 : vc.stop = ps.start + j + out.length := by rw [he]
      omega
    · have := troots x h vc hvc
      omega
  · unfold childOrder
    rw [List.pairwise_cons]
    constructor
    · intro m hm v1 v2 hv1 hv2
      have hvc2 := hstab c.nid (nid_mem_subtreeIds c) v1 hv1
      rw [hsp2] at hvc2
      have he : v1 = ⟨ps.start + j, ps.start + j + out.length, c.ntype⟩ :=
        (Option.some.inj hvc2).symm
      have hs1 : v1.start = ps.start + j := by rw [he]
      have h2 := troots m hm v2 hv2
      omega
    · exact tord
  · intro a ha c2 hc2 vc hvc
    rw [forestNodes] at ha
    rcases List.mem_append.mp ha with hal | har
    · have hk : c2.nid ∈ subtreeIds c :=
        properDesc_nid_in_subtreeIds (edge_in_properDesc hal hc2)
      have hvc2 := hstab c2.nid hk vc hvc
      obtain ⟨va, hva, hcon⟩ :=
        edges2 a (by rw [forestNodes_singleton]; exact hal) c2 hc2 vc hvc2
      exact ⟨va, tpres a.nid va hva, hcon⟩
    · exact tedges a har c2 hc2 vc hvc
  · intro a ha
    rw [forestNodes] at ha
    rcases List.mem_append.mp ha with hal | har
    · have hord2 := all2 a (by rw [forestNodes_singleton]; exact hal)
      refine pairwise_imp_mem ?_ hord2
      intro c1 h1 c2 h2 hR v1 v2 hv1 hv2
      have hk1 : c1.nid ∈ subtreeIds c :=
        properDesc_nid_in_subtreeIds (edge_in_properDesc hal h1)
      have hk2 : c2.nid ∈ subtreeIds c :=
        properDesc_nid_in_subtreeIds (edge_in_properDesc hal h2)
      exact hR v1 v2 (hstab c1.nid hk1 v1 hv1) (hstab c2.nid hk2 v2 hv2)
    · exact tall a har

theorem forestIds_nil : forestIds [] = [] := by
  unfold forestIds
  rw [forestNodes]
  rfl

theorem mset_fresh_facts (spans : Spans) (k : String) (v : SpanInfo)
    (h : mget spans k = none) :
    spansPreserved spans (mset spans k v) ∧
    domGrowth spans (mset spans k v) [k] ∧
    mget (mset spans k v) k = some v := by
  refine ⟨?_, ?_, mget_mset_fresh_self _ _ _ h⟩
  · intro k2 v2 h2
    have hk : k2 ≠ k := by
      intro he
      rw [he, h] at h2
      exact Option.noConfusion h2
    rw [mget_mset_fresh_other _ _ _ _ h hk]
    exact h2
  · intro k2 h2
    by_cases hk : k2 = k
    · right
      rw [hk]
      exact List.mem_cons_self _ _
    · left
      rw [mget_mset_fresh_other _ _ _ _ h hk] at h2
      exact h2

/-- When none of `c`'s proper descendants has a binding, the edge and order
conclusions for the subtree of `c` hold vacuously. -/
theorem node_fresh_facts (s : Spans) {c : Node}
    (hfresh : ∀ k ∈ forestIds c.children, mget s k = none) :
    edgesContained s [c] ∧ allChildOrder s [c] := by
  constructor
  · intro a ha c2 hc2 vc hvc
    rw [forestNodes_singleton] at ha
    have h2 := edge_in_properDesc ha hc2
    have h3 : c2.nid ∈ forestIds c.children := by
      unfold properDesc at h2
      exact mem_forestIds_of_mem h2
    rw [hfresh c2.nid h3] at hvc
    exact Option.noConfusion hvc
  · intro a ha
    rw [forestNodes_singleton] at ha
    unfold childOrder
    refine pairwise_of_mem a.children ?_
    intro c1 h1 c2 h2 v1 v2 hv1 hv2
    exfalso
    have h3 := edge_in_properDesc ha h1
    have h4 : c1.nid ∈ forestIds c.children := by
      unfold properDesc at h3
      exact mem_forestIds_of_mem h3
    rw [hfresh c1.nid h4] at hv1
    exact Option.noConfusion hv1

/-- The combined induction over `fmNode` / `fmChildren`, on a size bound. -/
theorem fm_strong (getC getCopy : Node → String) (content : String) :
    ∀ N : Nat,
      (∀ n : Node, sizeOf n ≤ N → ∀ spans : Spans,
        (subtreeIds n).Nodup →
        (∀ k ∈ forestIds n.children, mget spans k = none) →
        NodeConcl getC getCopy content n spans) ∧
      (∀ cs : List Node, sizeOf cs ≤ N →
        ∀ (ps : SpanInfo) (pc : String) (spans : Spans) (ss : Nat),
        pc.length ≤ ps.stop - ps.start →
        (forestIds cs).Nodup →
        (∀ k ∈ forestIds cs, mget spans k = none) →
        ChildrenConcl getC getCopy content ps pc cs spans ss) := by
  intro N
  induction N with
  | zero =>
    constructor
    · intro n hn
      exfalso
      cases n with
      | mk d cs =>
        simp only [Node.mk.sizeOf_spec] at hn
        omega
    · intro cs hcs
      exfalso
      cases cs with
      | nil =>
        simp only [List.nil.sizeOf_spec] at hcs
        omega
      | cons a l =>
        simp only [List.cons.sizeOf_spec] at hcs
        omega
  | succ N IHN =>
    obtain ⟨IHnode, IHchildren⟩ := IHN
    constructor
    · intro n hn spans hnd hfresh
      cases hch : n.children.isEmpty with
      | true =>
        obtain ⟨he, ho⟩ := node_fresh_facts spans hfresh
        unfold NodeConcl
        rw [fmNode_empty hch]
        exact ⟨fun k v h => h, fun k h => Or.inl h, he, ho⟩
      | false =>
        cases hsp : mget spans n.nid with
        | none =>
          obtain ⟨he, ho⟩ := node_fresh_facts spans hfresh
          unfold NodeConcl
          rw [fmNode_nospan hsp]
          exact ⟨fun k v h => h, fun k h => Or.inl h, he, ho⟩
        | some ps =>
          have hszc : sizeOf n.children ≤ N := by
            have h1 := Node.sizeOf_children_lt n
            omega
          have hplen : (substr content ps.start ps.stop).length ≤
              ps.stop - ps.start := by
            have h1 := substr_data_length_le content ps.start ps.stop
            have h2 : (substr content ps.start ps.stop).length =
              (substr content ps.start ps.stop).data.length := rfl
            omega
          have hkey := IHchildren n.children hszc ps
            (substr content ps.start ps.stop) spans 0 hplen
            (subtreeIds_nodup_parts hnd).2 hfresh
          unfold ChildrenConcl at hkey
          obtain ⟨hpres, hdom, hss, hroots, hord, hedges, hall⟩ := hkey
          unfold NodeConcl
          rw [fmNode_span hch hsp]
          refine ⟨hpres, hdom, ?_, ?_⟩
          · intro a ha c hc vc hvc
            rw [forestNodes_singleton, subtreeNodes_def] at ha
            rcases List.mem_cons.mp ha with han | han
            · rw [han] at hc ⊢
              have h2 := hroots c hc vc hvc
              exact ⟨ps, hpres n.nid ps hsp, by omega, h2.2⟩
            · exact hedges a han c hc vc hvc
          · intro a ha
            rw [forestNodes_singleton, subtreeNodes_def] at ha
            rcases List.mem_cons.mp ha with han | han
            · rw [han]
              exact hord
            · exact hall a han
    · intro cs hcs ps pc spans ss hpc hnd hfresh
      cases cs with
      | nil =>
        unfold ChildrenConcl
        rw [fmChildren_nil]
        refine ⟨fun k v h => h, fun k h => Or.inl h, le_rfl,
          fun c hc => absurd hc (List.not_mem_nil c), ?_, ?_, ?_⟩
        · unfold childOrder
          exact List.Pairwise.nil
        · intro a ha
          rw [forestNodes] at ha
          exact absurd ha (List.not_mem_nil a)
        · intro a ha
          rw [forestNodes] at ha
          exact absurd ha (List.not_mem_nil a)
      | cons c rest =>
        have hszc : sizeOf c ≤ N := by
          simp only [List.cons.sizeOf_spec] at hcs
          omega
        have hszr : sizeOf rest ≤ N := by
          simp only [List.cons.sizeOf_spec] at hcs
          omega
        obtain ⟨hndc, hndr, hdisj⟩ := forestIds_nodup_cons hnd
        have hfreshc : ∀ k ∈ subtreeIds c, mget spans k = none := by
          intro k hk
          refine hfresh k ?_
          rw [forestIds_cons]
          exact List.mem_append_left _ hk
        have hfreshr : ∀ k ∈ forestIds rest, mget spans k = none := by
          intro k hk
          refine hfresh k ?_
          rw [forestIds_cons]
          exact List.mem_append_right _ hk
        have hcfresh : mget spans c.nid = none :=
          hfreshc _ (nid_mem_subtreeIds c)
        have hmhas : mhas spans c.nid = false :=
          (mhas_false_iff _ _).mpr hcfresh
        cases hfs : fmSearch getC getCopy pc c ss with
        | mk out pos =>
          cases pos with
          | none =>
            have heq := @fmChildren_cons_none getC getCopy content ps pc c rest
              spans ss hmhas (by rw [hfs])
            exact childrenConcl_skip heq hfreshc hdisj
              (IHchildren rest hszr ps pc spans ss hpc hndr hfreshr)
          | some j =>
            by_cases hlen : 0 < out.length
            · have hb := fmSearch_bounds hfs hlen
              obtain ⟨pres01, dom01, hget1⟩ := mset_fresh_facts spans c.nid
                ⟨ps.start + j, ps.start + j + out.length, c.ntype⟩ hcfresh
              have dom01s : domGrowth spans
                  (mset spans c.nid
                    ⟨ps.start + j, ps.start + j + out.length, c.ntype⟩)
                  (subtreeIds c) := by
                intro k h
                rcases dom01 k h with h2 | h2
                · exact Or.inl h2
                · right
                  have h3 : k = c.nid := by simpa using h2
                  rw [h3]
                  exact nid_mem_subtreeIds c
              cases hce : c.children.isEmpty with
              | true =>
                have hchnil : c.children = [] := by
                  cases hcc : c.children with
                  | nil => rfl
                  | cons x xs =>
                    rw [hcc] at hce
                    simp at hce
                have heq := @fmChildren_cons_found getC getCopy content ps pc c
                  rest spans ss out j hmhas hfs hlen
                rw [if_pos hce] at heq
                have hfr2 : ∀ k ∈ forestIds c.children,
                    mget (mset spans c.nid
                      ⟨ps.start + j, ps.start + j + out.length, c.ntype⟩) k
                      = none := by
                  intro k hk
                  rw [hchnil, forestIds_nil] at hk
                  exact absurd hk (List.not_mem_nil k)
                obtain ⟨edges2, all2⟩ := node_fresh_facts _ hfr2
                have hfreshr2 : ∀ k ∈ forestIds rest,
                    mget (mset spans c.nid
                      ⟨ps.start + j, ps.start + j + out.length, c.ntype⟩) k
                      = none := by
                  intro k hk
                  exact mget_result_none dom01s (hfreshr k hk)
                    (fun hks => hdisj k hks hk)
                exact childrenConcl_found heq hpc hlen hb.1 hb.2 pres01 dom01s
                  hget1 edges2 all2 hdisj
                  (IHchildren rest hszr ps pc _ (j + out.length) hpc hndr
                    hfreshr2)
              | false =>
                have heq := @fmChildren_cons_found getC getCopy content ps pc c
                  rest spans ss out j hmhas hfs hlen
                rw [if_neg (by simp [hce])] at heq
                have hfresh1 : ∀ k ∈ forestIds c.children,
                    mget (mset spans c.nid
                      ⟨ps.start + j, ps.start + j + out.length, c.ntype⟩) k
                      = none := by
                  intro k hk
                  have hkc : k ≠ c.nid := by
                    intro hkk
                    exact (subtreeIds_nodup_parts hndc).1 (hkk ▸ hk)
                  rw [mget_mset_fresh_other _ _ _ _ hcfresh hkc]
                  refine hfreshc k ?_
                  rw [subtreeIds_def]
                  exact List.mem_cons_of_mem _ hk
                have hnode := IHnode c hszc
                  (mset spans c.nid
                    ⟨ps.start + j, ps.start + j + out.length, c.ntype⟩)
                  hndc hfresh1
                unfold NodeConcl at hnode
                obtain ⟨pres12, dom12, edges2, all2⟩ := hnode
                have pres02 : spansPreserved spans
                    (fmNode getC getCopy content c
                      (mset spans c.nid
                        ⟨ps.start + j, ps.start + j + out.length, c.ntype⟩)) :=
                  fun k v h => pres12 k v (pres01 k v h)
                have dom02 : domGrowth spans
                    (fmNode getC getCopy content c
                      (mset spans c.nid
                        ⟨ps.start + j, ps.start + j + out.length, c.ntype⟩))
                    (subtreeIds c) := by
                  intro k h
                  rcases dom12 k h with h2 | h2
                  · exact dom01s k h2
                  · right
                    rw [subtreeIds_def]
                    exact List.mem_cons_of_mem _ h2
                have hsp2 : mget
                    (fmNode getC getCopy content c
                      (mset spans c.nid
                        ⟨ps.start + j, ps.start + j + out.length, c.ntype⟩))
                    c.nid =
                    some ⟨ps.start + j, ps.start + j + out.length, c.ntype⟩ :=
                  pres12 c.nid _ hget1
                have hfreshr2 : ∀ k ∈ forestIds rest,
                    mget (fmNode getC getCopy content c
                      (mset spans c.nid
                        ⟨ps.start + j, ps.start + j + out.length, c.ntype⟩)) k
                      = none := by
                  intro k hk
                  exact mget_result_none dom02 (hfreshr k hk)
                    (fun hks => hdisj k hks hk)
                exact childrenConcl_found heq hpc hlen hb.1 hb.2 pres02 dom02
                  hsp2 edges2 all2 hdisj
                  (IHchildren rest hszr ps pc _ (j + out.length) hpc hndr
                    hfreshr2)
            · have hlen0 : out.length = 0 := by omega
              have heq := @fmChildren_cons_zero getC getCopy content ps pc c
                rest spans ss out j hmhas hfs hlen0
              exact childrenConcl_skip heq hfreshc hdisj
                (IHchildren rest hszr ps pc spans ss hpc hndr hfreshr)

theorem subtreeIds_sub {ns : List Node} {r : Node} (hr : r ∈ ns) :
    ∀ k ∈ subtreeIds r, k ∈ forestIds ns := by
  intro k hk
  rcases List.mem_map.mp hk with ⟨x, hx, hxk⟩
  rw [← hxk]
  exact mem_forestIds_of_mem (subtree_sub_of_mem ns r hr x hx)

theorem sizeOf_mem_lt {c : Node} : ∀ {cs : List Node}, c ∈ cs →
    sizeOf c < sizeOf cs := by
  intro cs
  induction cs with
  | nil => intro h; exact absurd h (List.not_mem_nil c)
  | cons a l ih =>
    intro h
    rcases List.mem_cons.mp h with h2 | h2
    · rw [h2]
      simp only [List.cons.sizeOf_spec]
      omega
    · have := ih h2
      simp only [List.cons.sizeOf_spec]
      omega

theorem rootIds_nodup {ns : List Node} (h : (forestIds ns).Nodup) :
    (ns.map Node.nid).Nodup := by
  induction ns with
  | nil => simp
  | cons n rest ih =>
    obtain ⟨hn, hr, hdisj⟩ := forestIds_nodup_cons h
    rw [List.map_cons, List.nodup_cons]
    constructor
    · intro hmem
      rcases List.mem_map.mp hmem with ⟨r, hrm, hre⟩
      have h2 : r.nid ∈ forestIds rest :=
        subtreeIds_sub hrm _ (nid_mem_subtreeIds r)
      rw [hre] at h2
      exact hdisj n.nid (nid_mem_subtreeIds n) h2
    · exact ih hr

/-- With globally distinct ids, no root id occurs among any root's proper
descendants. -/
theorem root_id_not_in_desc {ns : List Node} (h : (forestIds ns).Nodup) :
    ∀ r ∈ ns, ∀ r2 ∈ ns, ∀ k, k ∈ forestIds r.children → k = r2.nid →
      False := by
  induction ns with
  | nil =>
    intro r hr
    exact absurd hr (List.not_mem_nil r)
  | cons n rest ih =>
    obtain ⟨hn, hr, hdisj⟩ := forestIds_nodup_cons h
    intro r hrm r2 hr2 k hk hke
    have hksub : k ∈ subtreeIds r := by
      rw [subtreeIds_def]
      exact List.mem_cons_of_mem _ hk
    rcases List.mem_cons.mp hrm with hr1 | hr1 <;>
      rcases List.mem_cons.mp hr2 with hr21 | hr21
    · rw [hr1] at hk
      rw [hke, hr21] at hk
      exact (subtreeIds_nodup_parts hn).1 hk
    · rw [hr1] at hksub
      have h2 : k ∈ forestIds rest := by
        rw [hke]
        exact subtreeIds_sub hr21 _ (nid_mem_subtreeIds r2)
      exact hdisj k hksub h2
    · have h2 : k ∈ forestIds rest := subtreeIds_sub hr1 k hksub
      have h3 : k ∈ subtreeIds n := by
        rw [hke, hr21]
        exact nid_mem_subtreeIds n
      exact hdisj k h3 h2
    · exact ih hr r hr1 r2 hr21 k hk hke

/-- `findMissingChildSpans` over a root list: preserves bindings, adds only
forest ids, and establishes the containment and sibling-order facts for
every subtree. -/
theorem fmForest_invariant (getC getCopy : Node → String) (content : String) :
    ∀ (ns : List Node) (spans : Spans),
      (forestIds ns).Nodup →
      (∀ r ∈ ns, ∀ k ∈ forestIds r.children, mget spans k = none) →
      spansPreserved spans (fmForest getC getCopy content ns spans) ∧
      domGrowth spans (fmForest getC getCopy content ns spans)
        (forestIds ns) ∧
      edgesContained (fmForest getC getCopy content ns spans) ns ∧
      allChildOrder (fmForest getC getCopy content ns spans) ns := by
  intro ns
  induction ns with
  | nil =>
    intro spans hnd hfresh
    refine ⟨fun k v h => h, fun k h => Or.inl h, ?_, ?_⟩
    · intro a ha
      rw [forestNodes] at ha
      exact absurd ha (List.not_mem_nil a)
    · intro a ha
      rw [forestNodes] at ha
      exact absurd ha (List.not_mem_nil a)
  | cons n rest ih =>
    intro spans hnd hfresh
    rw [show fmForest getC getCopy content (n :: rest) spans =
      fmForest getC getCopy content rest
        (fmNode getC getCopy content n spans) from rfl]
    obtain ⟨hndn, hndr, hdisj⟩ := forestIds_nodup_cons hnd
    have hfreshn : ∀ k ∈ forestIds n.children, mget spans k = none :=
      hfresh n (List.mem_cons_self n rest)
    have hnode := (fm_strong getC getCopy content (sizeOf n)).1 n le_rfl
      spans hndn hfreshn
    unfold NodeConcl at hnode
    obtain ⟨pres1, dom1, edges1, all1⟩ := hnode
    have hfreshr : ∀ r ∈ rest, ∀ k ∈ forestIds r.children,
        mget (fmNode getC getCopy content n spans) k = none := by
      intro r hr k hk
      have hk2 : k ∈ forestIds rest := by
        have h3 : k ∈ subtreeIds r := by
          rw [subtreeIds_def]
          exact List.mem_cons_of_mem _ hk
        exact subtreeIds_sub hr k h3
      have h0 : mget spans k = none := hfresh r (List.mem_cons_of_mem n hr) k hk
      refine mget_result_none dom1 h0 ?_
      intro hkin
      refine hdisj k ?_ hk2
      rw [subtreeIds_def]
      exact List.mem_cons_of_mem _ hkin
    obtain ⟨pres2, dom2, edges2, all2⟩ :=
      ih (fmNode getC getCopy content n spans) hndr hfreshr
    have hstab : ∀ k ∈ subtreeIds n, ∀ v,
        mget (fmForest getC getCopy content rest
          (fmNode getC getCopy content n spans)) k = some v →
        mget (fmNode getC getCopy content n spans) k = some v :=
      fun k hk v hv => binding_stable pres2 dom2 (hdisj k hk) hv
    refine ⟨fun k v h => pres2 k v (pres1 k v h), ?_, ?_, ?_⟩
    · intro k h
      rcases dom2 k h with h2 | h2
      · rcases dom1 k h2 with h3 | h3
        · exact Or.inl h3
        · right
          rw [forestIds_cons]
          refine List.mem_append_left _ ?_
          rw [subtreeIds_def]
          exact List.mem_cons_of_mem _ h3
      · right
        rw [forestIds_cons]
        exact List.mem_append_right _ h2
    · intro a ha c hc vc hvc
      rw [forestNodes] at ha
      rcases List.mem_append.mp ha with hal | har
      · have hk : c.nid ∈ subtreeIds n :=
          properDesc_nid_in_subtreeIds (edge_in_properDesc hal hc)
        have hvc2 := hstab c.nid hk vc hvc
        obtain ⟨va, hva, hcon⟩ :=
          edges1 a (by rw [forestNodes_singleton]; exact hal) c hc vc hvc2
        exact ⟨va, pres2 a.nid va hva, hcon⟩
      · exact edges2 a har c hc vc hvc
    · intro a ha
      rw [forestNodes] at ha
      rcases List.mem_append.mp ha with hal | har
      · have hord1 := all1 a (by rw [forestNodes_singleton]; exact hal)
        refine pairwise_imp_mem ?_ hord1
        intro c1 h1 c2 h2 hR v1 v2 hv1 hv2
        have hk1 : c1.nid ∈ subtreeIds n :=
          properDesc_nid_in_subtreeIds (edge_in_properDesc hal h1)
        have hk2 : c2.nid ∈ subtreeIds n :=
          properDesc_nid_in_subtreeIds (edge_in_properDesc hal h2)
        exact hR v1 v2 (hstab c1.nid hk1 v1 hv1) (hstab c2.nid hk2 v2 hv2)
      · exact all2 a har

/-- Transitive closure of per-edge containment down a subtree. -/
theorem contained_chain (s : Spans) :
    ∀ (M : Nat) (a : Node), sizeOf a ≤ M →
      (∀ x ∈ subtreeNodes a, ∀ c ∈ x.children, ∀ vc,
        mget s c.nid = some vc →
        ∃ vx, mget s x.nid = some vx ∧ vx.start ≤ vc.start ∧
          vc.stop ≤ vx.stop) →
      ∀ b ∈ properDesc a, ∀ vb, mget s b.nid = some vb →
        ∃ va, mget s a.nid = some va ∧ va.start ≤ vb.start ∧
          vb.stop ≤ va.stop := by
  intro M
  induction M with
  | zero =>
    intro a ha
    exfalso
    cases a with
    | mk d cs =>
      simp only [Node.mk.sizeOf_spec] at ha
      omega
  | succ M ih =>
    intro a ha hedge b hb vb hvb
    unfold properDesc at hb
    rcases (mem_forest_iff a.children b).mp hb with ⟨c, hc, hbc⟩
    rw [subtreeNodes_def] at hbc
    rcases List.mem_cons.mp hbc with hbc1 | hbc2
    · exact hedge a (self_mem_subtree a) c hc vb (by rw [← hbc1]; exact hvb)
    · have hszc : sizeOf c ≤ M := by
        have h1 := sizeOf_mem_lt hc
        have h2 := Node.sizeOf_children_lt a
        omega
      have hedgec : ∀ x ∈ subtreeNodes c, ∀ c2 ∈ x.children, ∀ vc,
          mget s c2.nid = some vc →
          ∃ vx, mget s x.nid = some vx ∧ vx.start ≤ vc.start ∧
            vc.stop ≤ vx.stop :=
        fun x hx => hedge x (subtree_trans (mem_children_subtree hc) hx)
      obtain ⟨vc, hvc, h1, h2⟩ := ih c hszc hedgec b hbc2 vb hvb
      obtain ⟨va, hva, h3, h4⟩ := hedge a (self_mem_subtree a) c hc vc hvc
      exact ⟨va, hva, Nat.le_trans h3 h1, Nat.le_trans h2 h4⟩

/-- The C1 property of one `{content, spans}` export result: descendant span
containment, render-order sibling starts at the top level, and render-order
sibling starts within every node's children list. -/
def SpanOutcome (roots : List Node) (out : String × Spans) : Prop :=
  (∀ a ∈ forestNodes roots, ∀ b ∈ properDesc a, ∀ va vb,
    mget out.2 a.nid = some va → mget out.2 b.nid = some vb →
    va.start ≤ vb.start ∧ vb.stop ≤ va.stop) ∧
  childOrder out.2 roots ∧
  allChildOrder out.2 roots

theorem toContentWithSpans_eq (render copy : Node → String) (sep : String)
    (nodes : List Node) {t2 : Tracker}
    (h : (getContentAux render sep nodes "" (some ⟨[], 0⟩)).2 = some t2) :
    toContentWithSpans render copy sep nodes =
      ((getContentAux render sep nodes "" (some ⟨[], 0⟩)).1,
       fmForest render copy
         (getContentAux render sep nodes "" (some ⟨[], 0⟩)).1
         nodes t2.spans) := by
  simp only [toContentWithSpans, h]

theorem toContentWithSpans_invariant (render copy : Node → String)
    (sep : String) (roots : List Node)
    (hnd : (forestIds roots).Nodup) :
    SpanOutcome roots (toContentWithSpans render copy sep roots) := by
  obtain ⟨t2, heq, hpres0, hdom0, hpos0, hex0, hstart0, hord0⟩ :=
    primary_pass render sep roots "" ⟨[], 0⟩ (rootIds_nodup hnd)
      (fun n _ => rfl)
  rw [toContentWithSpans_eq render copy sep roots heq]
  have hfreshD : ∀ r ∈ roots, ∀ k ∈ forestIds r.children,
      mget t2.spans k = none := by
    intro r hr k hk
    cases hv : mget t2.spans k with
    | none => rfl
    | some w =>
      exfalso
      rcases hdom0 k (by rw [hv]; exact Option.noConfusion) with h | h
      · exact h rfl
      · rcases List.mem_map.mp h with ⟨r2, hr2, hre⟩
        exact root_id_not_in_desc hnd r hr r2 hr2 k hk hre.symm
  obtain ⟨fpres, fdom, fedges, fall⟩ :=
    fmForest_invariant render copy
      (getContentAux render sep roots "" (some ⟨[], 0⟩)).1 roots t2.spans
      hnd hfreshD
  have hback : ∀ m ∈ roots, ∀ v,
      mget (fmForest render copy
        (getContentAux render sep roots "" (some ⟨[], 0⟩)).1 roots
        t2.spans) m.nid = some v →
      mget t2.spans m.nid = some v := by
    intro m hm v hv
    cases hw : mget t2.spans m.nid with
    | none => exact absurd hw (hex0 m hm)
    | some w =>
      have h2 := fpres m.nid w hw
      rw [hv] at h2
      exact congrArg some (Option.some.inj h2).symm
  refine ⟨?_, ?_, fall⟩
  · intro a ha b hb va vb hva hvb
    have hchain := contained_chain _ (sizeOf a) a le_rfl
      (fun x hx c hc vc hvc =>
        fedges x (forest_trans (sizeOf roots) roots le_rfl a ha x hx) c hc
          vc hvc)
      b hb vb hvb
    obtain ⟨va2, hva2, h1, h2⟩ := hchain
    rw [hva] at hva2
    rw [Option.some.inj hva2]
    exact ⟨h1, h2⟩
  · refine pairwise_imp_mem ?_ hord0
    intro c1 h1 c2 h2 hR v1 v2 hv1 hv2
    exact hR v1 v2 (hback c1 h1 v1 hv1) (hback c2 h2 v2 hv2)

/-- C1: Span containment and sibling ordering.  For every node forest whose
ids are distinct (the spec's data model: "a stable string id, unique within a
tree"), in the `{content, spans}` result of `toLatexWithSpans` or
`toMarkdownWithSpans` (for any per-node render and copy methods), whenever
node `b` is a proper descendant of node `a` and both ids have recorded spans,
`a`'s span contains `b`'s span (`a.start ≤ b.start` and `b.end ≤ a.end`), and
the recorded spans of any sequence of siblings — the root list, and every
node's children list — have non-decreasing start positions matching render
order. -/
theorem span_containment_and_sibling_order (render copy : Node → String)
    (roots : List Node) (hnd : (forestIds roots).Nodup) :
    SpanOutcome roots (toLatexWithSpans render copy roots) ∧
    SpanOutcome roots (toMarkdownWithSpans render copy roots) :=
  ⟨toContentWithSpans_invariant render copy "\n" roots hnd,
   toContentWithSpans_invariant render copy "\n\n" roots hnd⟩

/-- A concrete two-root forest with nested children and distinct ids. -/
def exC1Roots : List Node :=
  [Node.mk ⟨"r1", "para", false⟩
    [Node.mk ⟨"c1", "text", true⟩ [], Node.mk ⟨"c2", "text", true⟩ []],
   Node.mk ⟨"r2", "para", false⟩ []]

/-- Witness for C1: the concrete forest satisfies the distinct-id hypothesis,
and the claim theorem yields both export invariants for it. -/
theorem span_containment_and_sibling_order_witness :
    (forestIds exC1Roots).Nodup ∧
    SpanOutcome exC1Roots (toLatexWithSpans Node.ntype Node.ntype exC1Roots) ∧
    SpanOutcome exC1Roots
      (toMarkdownWithSpans Node.ntype Node.ntype exC1Roots) := by
  have hnd : (forestIds exC1Roots).Nodup := by
    have h : forestIds exC1Roots = ["r1", "c1", "c2", "r2"] := by
      simp [exC1Roots, forestIds, forestNodes, subtreeNodes, Node.nid,
        Node.data]
    rw [h]
    decide
  obtain ⟨h1, h2⟩ :=
    span_containment_and_sibling_order Node.ntype Node.ntype exC1Roots hnd
  exact ⟨hnd, h1, h2⟩

/-! ### Node tree mutation (`addChild` / `removeChild`, claim C9)

Nodes are identified by `Nat` ids; the object graph is the pair of the
`parent` back-references and the per-node ordered `children` lists.  Freshly
constructed nodes have `parent = null` and no children.
`addChild(p, c)` pushes `c` onto `p`'s list and sets `c.parent = p` (WITHOUT
detaching `c` from a previous parent — the source does not detach).
`removeChild(p, c)` removes the first occurrence of `c` from `p`'s list and
nulls `c.parent`, only when `c` is present. -/

structure TreeState where
  parent : Nat → Option Nat
  children : Nat → List Nat

/-- All nodes freshly constructed. -/
def initState : TreeState := ⟨fun _ => none, fun _ => []⟩

inductive TreeOp where
  | add (p c : Nat)
  | remove (p c : Nat)

/-- One mutation step (`addChild` / `removeChild`). -/
def applyOp (s : TreeState) : TreeOp → TreeState
  | .add p c =>
    { parent := fun n => if n = c then some p else s.parent n,
      children := fun n => if n = p then s.children p ++ [c] else s.children n }
  | .remove p c =>
    if c ∈ s.children p then
      { parent := fun n => if n = c then none else s.parent n,
        children := fun n => if n = p then (s.children p).erase c else s.children n }
    else s

/-- Run a sequence of mutations from freshly constructed nodes. -/
def runOps (ops : List TreeOp) : TreeState := ops.foldl applyOp initState

/-- Legality of a sequence under the amended claim: `addChild` is only
applied to a child whose parent reference is null at that point. -/
def legalB (s : TreeState) : List TreeOp → Bool
  | [] => true
  | .add p c :: rest => (s.parent c).isNone && legalB (applyOp s (.add p c)) rest
  | .remove p c :: rest => legalB (applyOp s (.remove p c)) rest

/-- The strengthened structural invariant: a node with a null parent is in
no children list; a node with parent `p` occurs exactly once in `p`'s list
and in no other list. -/
def treeInv (s : TreeState) : Prop :=
  ∀ c : Nat,
    match s.parent c with
    | none => ∀ q, c ∉ s.children q
    | some p => (s.children p).count c = 1 ∧ ∀ q, q ≠ p → c ∉ s.children q

theorem treeInv_init : treeInv initState := by
  intro c
  simp [initState, treeInv]

theorem applyOp_add_parent (s : TreeState) (p c n : Nat) :
    (applyOp s (.add p c)).parent n = if n = c then some p else s.parent n := rfl

theorem applyOp_add_children (s : TreeState) (p c n : Nat) :
    (applyOp s (.add p c)).children n =
      if n = p then s.children p ++ [c] else s.children n := rfl

theorem applyOp_remove_parent (s : TreeState) (p c n : Nat)
    (hmem : c ∈ s.children p) :
    (applyOp s (.remove p c)).parent n = if n = c then none else s.parent n := by
  simp only [applyOp]
  rw [if_pos hmem]

theorem applyOp_remove_children (s : TreeState) (p c n : Nat)
    (hmem : c ∈ s.children p) :
    (applyOp s (.remove p c)).children n =
      if n = p then (s.children p).erase c else s.children n := by
  simp only [applyOp]
  rw [if_pos hmem]

theorem treeInv_step (s : TreeState) (op : TreeOp) (hinv : treeInv s)
    (hleg : match op with
      | .add _ c => s.parent c = none
      | .remove _ _ => True) :
    treeInv (applyOp s op) := by
  cases op with
  | add p c =>
    have hcnone : s.parent c = none := hleg
    have hcfree : ∀ q, c ∉ s.children q := by
      have hc := hinv c
      rw [hcnone] at hc
      exact hc
    intro d
    show (match (applyOp s (.add p c)).parent d with
      | none => ∀ q, d ∉ (applyOp s (.add p c)).children q
      | some pp => ((applyOp s (.add p c)).children pp).count d = 1 ∧
          ∀ q, q ≠ pp → d ∉ (applyOp s (.add p c)).children q)
    rw [applyOp_add_parent]
    by_cases hdc : d = c
    · rw [if_pos hdc]
      subst hdc
      constructor
      · rw [applyOp_add_children, if_pos rfl, List.count_append,
          List.count_eq_zero.mpr (hcfree p)]
        simp
      · intro q hq
        rw [applyOp_add_children, if_neg hq]
        exact hcfree q
    · rw [if_neg hdc]
      have hch : ∀ q, d ∈ (applyOp s (.add p c)).children q ↔ d ∈ s.children q := by
        intro q
        rw [applyOp_add_children]
        by_cases hqp : q = p
        · rw [if_pos hqp, List.mem_append]
          subst hqp
          simp [hdc]
        · rw [if_neg hqp]
      have hcnt : ∀ q, ((applyOp s (.add p c)).children q).count d
          = (s.children q).count d := by
        intro q
        rw [applyOp_add_children]
        by_cases hqp : q = p
        · rw [if_pos hqp, List.count_append]
          subst hqp
          simp [hdc]
        · rw [if_neg hqp]
      have hd := hinv d
      rcases hdp : s.parent d with _ | pp
      · rw [hdp] at hd
        intro q
        rw [hch q]
        exact hd q
      · rw [hdp] at hd
        exact ⟨by rw [hcnt pp]; exact hd.1, fun q hq => by rw [hch q]; exact hd.2 q hq⟩
  | remove p c =>
    by_cases hmem : c ∈ s.children p
    · -- From the invariant, c's parent must be p and c occurs once in p's list.
      have hcinv := hinv c
      have hcp : s.parent c = some p := by
        rcases hpc : s.parent c with _ | q
        · rw [hpc] at hcinv
          exact absurd hmem (hcinv p)
        · rw [hpc] at hcinv
          by_cases hqp : q = p
          · rw [hqp]
          · exact absurd hmem (hcinv.2 p (fun hh => hqp hh.symm))
      rw [hcp] at hcinv
      intro d
      show (match (applyOp s (.remove p c)).parent d with
        | none => ∀ q, d ∉ (applyOp s (.remove p c)).children q
        | some pp => ((applyOp s (.remove p c)).children pp).count d = 1 ∧
            ∀ q, q ≠ pp → d ∉ (applyOp s (.remove p c)).children q)
      rw [applyOp_remove_parent s p c d hmem]
      by_cases hdc : d = c
      · rw [if_pos hdc]
        subst hdc
        intro q
        rw [applyOp_remove_children s p d q hmem]
        by_cases hqp : q = p
        · rw [if_pos hqp]
          subst hqp
          intro hin
          have hpos := List.count_pos_iff.mpr hin
          rw [List.count_erase_self, hcinv.1] at hpos
          omega
        · rw [if_neg hqp]
          exact hcinv.2 q hqp
      · rw [if_neg hdc]
        have hch : ∀ q, d ∈ (applyOp s (.remove p c)).children q ↔ d ∈ s.children q := by
          intro q
          rw [applyOp_remove_children s p c q hmem]
          by_cases hqp : q = p
          · rw [if_pos hqp]
            subst hqp
            exact ⟨fun hh => List.mem_of_mem_erase hh,
              fun hh => (List.mem_erase_of_ne hdc).mpr hh⟩
          · rw [if_neg hqp]
        have hcnt : ∀ q, ((applyOp s (.remove p c)).children q).count d
            = (s.children q).count d := by
          intro q
          rw [applyOp_remove_children s p c q hmem]
          by_cases hqp : q = p
          · rw [if_pos hqp]
            subst hqp
            exact List.count_erase_of_ne hdc _
          · rw [if_neg hqp]
        have hd := hinv d
        rcases hdp : s.parent d with _ | pp
        · rw [hdp] at hd
          intro q
          rw [hch q]
          exact hd q
        · rw [hdp] at hd
          exact ⟨by rw [hcnt pp]; exact hd.1, fun q hq => by rw [hch q]; exact hd.2 q hq⟩
    · have hstep : applyOp s (.remove p c) = s := by
        simp only [applyOp]
        rw [if_neg hmem]
      rw [hstep]
      exact hinv

theorem treeInv_run (ops : List TreeOp) : ∀ (s : TreeState),
    treeInv s → legalB s ops = true → treeInv (ops.foldl applyOp s) := by
  induction ops with
  | nil => intro s hs _; exact hs
  | cons op rest ih =>
    intro s hs hleg
    cases op with
    | add p c =>
      unfold legalB at hleg
      rw [Bool.and_eq_true] at hleg
      have hnone : s.parent c = none := by
        rcases hpc : s.parent c with _ | q
        · rfl
        · rw [hpc] at hleg
          simp [Option.isNone] at hleg
      exact ih (applyOp s (.add p c)) (treeInv_step s (.add p c) hs hnone) hleg.2
    | remove p c =>
      unfold legalB at hleg
      exact ih (applyOp s (.remove p c)) (treeInv_step s (.remove p c) hs trivial) hleg

/-- Claim C9, counterexample: the two-step sequence
`addChild(0, 2); addChild(1, 2)` leaves node 2 in the children lists of both
node 0 and node 1 — `addChild` does not detach a child from its previous
parent, so an arbitrary operation sequence can break the single-parent
invariant. -/
theorem single_parent_cex :
    (0 : Nat) ≠ 1 ∧
    2 ∈ (runOps [.add 0 2, .add 1 2]).children 0 ∧
    2 ∈ (runOps [.add 0 2, .add 1 2]).children 1 := by
  refine ⟨by decide, ?_, ?_⟩ <;> simp [runOps, applyOp, initState]

/-- Claim C9, amended: starting from freshly constructed nodes, after any
sequence of `addChild` / `removeChild` operations in which every `addChild`
is applied to a child whose parent reference is null at that moment (fresh,
or first detached with `removeChild`), no node is an element of two
different nodes' children lists, and a node's parent reference is `p`
exactly when `p`'s children list contains it (null if no list does). -/
theorem single_parent_invariant_amended (ops : List TreeOp)
    (hleg : legalB initState ops = true) :
    (∀ a b c : Nat, a ≠ b →
      ¬(c ∈ (runOps ops).children a ∧ c ∈ (runOps ops).children b)) ∧
    (∀ c p : Nat, (runOps ops).parent c = some p ↔ c ∈ (runOps ops).children p) := by
  have hinv : treeInv (runOps ops) := treeInv_run ops initState treeInv_init hleg
  constructor
  · intro a b c hab ⟨ha, hb⟩
    have hc := hinv c
    rcases hpc : (runOps ops).parent c with _ | q
    · rw [hpc] at hc
      exact hc a ha
    · rw [hpc] at hc
      by_cases haq : a = q
      · subst haq
        exact hc.2 b (fun hh => hab hh.symm) hb
      · exact hc.2 a haq ha
  · intro c p
    have hc := hinv c
    constructor
    · intro hp
      rw [hp] at hc
      exact List.count_pos_iff.mp (by rw [hc.1]; omega)
    · intro hmem
      rcases hpc : (runOps ops).parent c with _ | q
      · rw [hpc] at hc
        exact absurd hmem (hc p)
      · rw [hpc] at hc
        by_cases hqp : q = p
        · rw [hqp]
        · exact absurd hmem (hc.2 p (fun hh => hqp hh.symm))

/-- Claim C9, witness: a legal sequence that re-parents node 1 only after
removing it from its first parent. -/
theorem single_parent_invariant_amended_witness :
    legalB initState [.add 0 1, .add 0 2, .remove 0 1, .add 2 1] = true ∧
    (∀ a b c : Nat, a ≠ b →
      ¬(c ∈ (runOps [.add 0 1, .add 0 2, .remove 0 1, .add 2 1]).children a ∧
        c ∈ (runOps [.add 0 1, .add 0 2, .remove 0 1, .add 2 1]).children b)) ∧
    (∀ c p : Nat,
      (runOps [.add 0 1, .add 0 2, .remove 0 1, .add 2 1]).parent c = some p ↔
      c ∈ (runOps [.add 0 1, .add 0 2, .remove 0 1, .add 2 1]).children p) :=
  ⟨by decide, (single_parent_invariant_amended _ (by decide)).1,
    (single_parent_invariant_amended _ (by decide)).2⟩

end SciTok
